import Mathlib

/-!
Verification of the hashfs library (benbjohnson/hashfs): a content-addressed
filename codec (`FormatName` / `ParseName`), a memoizing hash-name cache
(`HashName`, `FS.open`), and a minimal HTTP file handler (`fsHandler.ServeHTTP`).

Strings are modelled as `List Char`. The Go standard-library path helpers used
by the code (`path.Split`, `path.Clean`, `path.Join`, `strings.Index`) are
embedded below; `path.Clean` is modelled by the standard element-stack
semantics of Go's lazybuf algorithm: split on `/`, drop empty and `.` elements,
resolve `..` (popping inside the path, kept at the front of an unrooted path,
dropped at the root of a rooted path), then re-join.
-/

set_option autoImplicit false

abbrev Str := List Char

/-- Model of `strings.Split(s, string(sep))` restricted to a single-character
separator: the list of maximal runs between occurrences of `sep`. -/
def splitOnChar (sep : Char) : Str → List Str
  | [] => [[]]
  | c :: rest =>
    if c = sep then [] :: splitOnChar sep rest
    else
      match splitOnChar sep rest with
      | [] => [[c]]
      | e :: es => (c :: e) :: es

/-- Split a path on `/` (used by the model of `path.Clean`). -/
def splitSlash : Str → List Str := splitOnChar '/'

/-- Model of `strings.Join(es, "/")`. -/
def joinSlash : List Str → Str
  | [] => []
  | [e] => e
  | e :: e' :: es => e ++ '/' :: joinSlash (e' :: es)

def dotdot : Str := ['.', '.']

/-- One step of `path.Clean`'s element processing. The stack is kept in
reverse order (head = most recently emitted element). Empty and `.` elements
are dropped; `..` pops a previous element, accumulates at the bottom of an
unrooted path, and is discarded at the root of a rooted path. -/
def cleanStep (rooted : Bool) (st : List Str) (e : Str) : List Str :=
  if e = [] ∨ e = ['.'] then st
  else if e = dotdot then
    if rooted then st.tail
    else
      match st with
      | [] => [dotdot]
      | x :: xs => if x = dotdot then dotdot :: x :: xs else xs
  else e :: st

/-- Print a processed element stack back into a path, as `path.Clean` does:
a rooted path gets a leading `/`; an empty result prints as `/` (rooted)
or `.` (unrooted). -/
def printStack (rooted : Bool) (st : List Str) : Str :=
  let out := joinSlash st.reverse
  if rooted then '/' :: out
  else if out = [] then ['.'] else out

/-- Model of Go `path.Clean`. -/
def clean (p : Str) : Str :=
  match p with
  | [] => ['.']
  | c :: _ =>
    let rooted := c = '/'
    printStack rooted (List.foldl (cleanStep rooted) [] (splitSlash p))

/-- Model of Go `path.Split`: split after the final slash; the directory part
keeps its trailing slash and the file part is slash-free. -/
def splitDir (p : Str) : Str × Str :=
  let b := (p.reverse.takeWhile (fun c => c ≠ '/')).reverse
  (p.take (p.length - b.length), b)

/-- Model of Go `path.Join(dir, b)`: empty elements are skipped, the rest are
joined with `/` and the result is cleaned; all-empty input yields `""`. -/
def goJoin (dir b : Str) : Str :=
  if dir = [] then
    if b = [] then [] else clean b
  else clean (dir ++ '/' :: b)

/-- Lowercase-hex character class `[0-9a-f]` of `hashSuffixRegex`. -/
def isHexChar (c : Char) : Bool :=
  (decide ('0' ≤ c) && decide (c ≤ '9')) || (decide ('a' ≤ c) && decide (c ≤ 'f'))

/-- Model of `hashSuffixRegex.MatchString` for `hashSuffixRegex =
regexp.MustCompile(&quot;-[0-9a-f]\x7b64\x7d&quot;)`: true iff the string contains, at any
position, a dash followed by at least 64 lowercase-hex characters. The
pattern is unanchored, so an internal occurrence matches. -/
def hashSuffixMatch : Str → Bool
  | [] => false
  | c :: rest =>
    (decide (c = '-') && decide (64 ≤ rest.length) && (rest.take 64).all isHexChar)
      || hashSuffixMatch rest

/-- The stem/extension split used by both `FormatName` and `ParseName`:
`strings.Index(base, ".")` finds the first dot, so the stem is the longest
dot-free prefix and the extension starts at the first dot. -/
def fmtBase (base hash : Str) : Str :=
  if '.' ∈ base then
    base.takeWhile (fun c => c ≠ '.') ++ '-' :: hash ++ base.dropWhile (fun c => c ≠ '.')
  else base ++ '-' :: hash

/-- Model of `hashfs.FormatName`. -/
def FormatName (filename hash : Str) : Str :=
  if filename = [] then []
  else if hash = [] then filename
  else
    let db := splitDir filename
    goJoin db.1 (fmtBase db.2 hash)

/-- The pre-extension stem `ParseName` runs the regex on. -/
def preOf (filename : Str) : Str :=
  let base := (splitDir filename).2
  if '.' ∈ base then base.takeWhile (fun c => c ≠ '.') else base

/-- The extension part split off by `ParseName`. -/
def extOf (filename : Str) : Str :=
  let base := (splitDir filename).2
  if '.' ∈ base then base.dropWhile (fun c => c ≠ '.') else []

/-- Model of package-level `hashfs.ParseName`. -/
def ParseName (filename : Str) : Str × Str :=
  if filename = [] then ([], [])
  else
    let dir := (splitDir filename).1
    let pre := preOf filename
    let ext := extOf filename
    if hashSuffixMatch pre then
      (goJoin dir (pre.take (pre.length - 65) ++ ext), pre.drop (pre.length - 64))
    else (filename, [])

/-! ## The stateful cache (`FS`) -/

/-- Go error classification as seen through `errors.Is(err, fs.ErrNotExist)`. -/
inductive GoErr where
  | notExist
  | other
deriving DecidableEq

/-- Result of `fs.FileInfo` queries used by the handler. -/
structure Finfo where
  isDir : Bool
  size : Nat
  modTime : Nat
deriving DecidableEq

/-- An opened file: its `Stat` result, its byte content, and whether the
concrete value implements `io.ReadSeeker` (decides the `ServeHTTP` switch). -/
structure Fyle where
  info : Except GoErr Finfo
  content : List Nat
  seeker : Bool

/-- The underlying `fs.FS` store: `Open` and `fs.ReadFile` as opaque
path-indexed results. -/
structure Store where
  openF : Str → Except GoErr Fyle
  readF : Str → Except GoErr (List Nat)

/-- The two cache maps of `hashfs.FS`. Go maps are modelled as association
lists with insert-at-front (so lookup of the first match realises
overwrite-on-reinsert). -/
structure FSState where
  m : List (Str × Str)
  r : List (Str × (Str × Str))

/-- Model of `hashfs.NewFS`: both maps start empty. -/
def NewFS : FSState := ⟨[], []⟩

/-- First-match association-list lookup (Go map indexing). -/
def lookA {α : Type} : List (Str × α) → Str → Option α
  | [], _ => none
  | (k', v) :: rest, k => if k' = k then some v else lookA rest k

/-- Result of a `HashName` call: the returned string, the updated cache, and
the list of paths read from the underlying store during the call. -/
structure HashNameOut where
  res : Str
  st : FSState
  reads : List Str

/-- Model of `(*FS).HashName`. `sha` is the digest primitive
`hex.EncodeToString(sha256.Sum256(buf))`, taken as a parameter of the model.
A cached non-empty entry is returned without touching the store; otherwise the
content is read (`fs.ReadFile`), a read error returns the name unchanged, and
on success both maps gain the new entry. -/
def HashName (store : Store) (sha : List Nat → Str) (st : FSState) (name : Str) :
    HashNameOut :=
  let s := (lookA st.m name).getD []
  if s ≠ [] then ⟨s, st, []⟩
  else
    match store.readF name with
    | .error _ => ⟨name, st, [name]⟩
    | .ok buf =>
      let hashhex := sha buf
      let hashname := FormatName name hashhex
      ⟨hashname, ⟨(name, hashname) :: st.m, (hashname, (name, hashhex)) :: st.r⟩, [name]⟩

/-- Model of the method `(*FS).ParseName`: reverse-map fast path, then the
package-level `ParseName`. -/
def FSParseName (st : FSState) (filename : Str) : Str × Str :=
  match lookA st.r filename with
  | some bh => bh
  | none => ParseName filename

/-- Result of `(*FS).open`: the opened file (or error), the parsed hash, the
updated cache, and the underlying reads performed. -/
structure OpenOut where
  file : Except GoErr Fyle
  hash : Str
  st : FSState
  reads : List Str

/-- Model of `(*FS).open`: parse the name; if a digest is present and
`HashName(base)` equals the requested name, open the base path, else open the
literal name; the underlying `Open` result is returned unchanged. -/
def openFS (store : Store) (sha : List Nat → Str) (st : FSState) (name : Str) :
    OpenOut :=
  let bh := FSParseName st name
  if bh.2 ≠ [] then
    let hn := HashName store sha st bh.1
    let name' := if hn.res = name then bh.1 else name
    ⟨store.openF name', bh.2, hn.st, hn.reads⟩
  else ⟨store.openF name, bh.2, st, []⟩

/-! ## The HTTP handler -/

/-- An HTTP request: method, URL path, and headers (canonical MIME keys). -/
structure Request where
  method : Str
  urlPath : Str
  headers : List (Str × Str)

/-- Header lookup, `r.Header.Get(k)`: missing headers read as `""`. -/
def hdrGet (hs : List (Str × Str)) (k : Str) : Str := (lookA hs k).getD []

/-- The response fields the claims are about. `body` is the bytes written
after the header flush; `Content-Type`, `Accept-Ranges`, `Last-Modified` and
`Content-Range` are not modelled (no claim mentions them). -/
structure Response where
  status : Nat
  cacheControl : Option Str
  etag : Option Str
  contentLength : Option Nat
  body : List Nat

def bytesOf (s : Str) : List Nat := s.map Char.toNat

def mGET : Str := "GET".data
def mHEAD : Str := "HEAD".data
def body404 : Str := "404 page not found\n".data
def body500 : Str := "500 Internal Server Error\n".data
def body403 : Str := "403 Forbidden\n".data
def ccValue : Str := "public, max-age=31536000".data
def hIfMatch : Str := "If-Match".data
def hIfNoneMatch : Str := "If-None-Match".data
def hIfModifiedSince : Str := "If-Modified-Since".data
def hIfUnmodifiedSince : Str := "If-Unmodified-Since".data
def hIfRange : Str := "If-Range".data
def hRange : Str := "Range".data

/-- `http.Error(w, msg, code)`: headers reset, plain-text body `msg+"\n"`. -/
def httpError (msg : Str) (code : Nat) : Response :=
  ⟨code, none, none, none, bytesOf msg⟩

/-- Model of `textproto.TrimString`: strip leading and trailing ASCII space. -/
def trimWS (s : Str) : Str :=
  let ws := fun c => c = ' ' ∨ c = '\t' ∨ c = '\n' ∨ c = '\r'
  ((s.dropWhile (fun c => decide (ws c))).reverse.dropWhile
    (fun c => decide (ws c))).reverse

/-- Character class accepted inside an entity-tag by `scanETag`. -/
def etagCharOk (c : Char) : Bool :=
  decide (c.toNat = 0x21) || (decide (0x23 ≤ c.toNat) && decide (c.toNat ≤ 0x7E))
    || decide (0x80 ≤ c.toNat)

/-- Scan the quoted part of an entity tag: the characters before the closing
quote, and the remainder after it. -/
def scanETagBody : Str → Option (Str × Str)
  | [] => none
  | c :: rest =>
    if c = '"' then some ([], rest)
    else if etagCharOk c then
      match scanETagBody rest with
      | some (inner, remain) => some (c :: inner, remain)
      | none => none
    else none

/-- Model of net/http `scanETag`: an optional `W/` prefix, then a
double-quoted run of etag characters; returns the full tag (prefix and quotes
included) and the remaining text, or `("", "")` if no valid tag starts here. -/
def scanETag (s0 : Str) : Str × Str :=
  let s := trimWS s0
  let start := if s.take 2 = ['W', '/'] then 2 else 0
  match s.drop start with
  | '"' :: body =>
    (match scanETagBody body with
     | some (inner, remain) => (s.take start ++ '"' :: inner ++ ['"'], remain)
     | none => ([], []))
  | _ => ([], [])

/-- Model of net/http `etagStrongMatch`. -/
def etagStrongMatch (a b : Str) : Bool :=
  decide (a = b) && decide (a.head? = some '"')

def stripWeakMark (a : Str) : Str := if a.take 2 = ['W', '/'] then a.drop 2 else a

/-- Model of net/http `etagWeakMatch`. -/
def etagWeakMatch (a b : Str) : Bool :=
  decide (stripWeakMark a = stripWeakMark b)

inductive CondRes where
  | cNone
  | cTrue
  | cFalse
deriving DecidableEq

/-- Loop of `checkIfNoneMatch`: comma-separated tags, `*` matches anything,
otherwise weak comparison against the current `ETag` response header. The
fuel is the length of the remaining text; every iteration consumes at least
one character, so the fuel-exhausted branch is unreachable. -/
def cinmLoop (etHdr : Str) : Nat → Str → CondRes
  | 0, _ => .cTrue
  | fuel + 1, buf0 =>
    let buf := trimWS buf0
    match buf with
    | [] => .cTrue
    | c :: rest =>
      if c = ',' then cinmLoop etHdr fuel rest
      else if c = '*' then .cFalse
      else
        let er := scanETag buf
        if er.1 = [] then .cTrue
        else if etagWeakMatch er.1 etHdr then .cFalse
        else cinmLoop etHdr fuel er.2

/-- Model of net/http `checkIfNoneMatch`; `et` is the `ETag` response header
set so far. -/
def checkIfNoneMatch (et : Option Str) (req : Request) : CondRes :=
  let inm := hdrGet req.headers hIfNoneMatch
  if inm = [] then .cNone else cinmLoop (et.getD []) (inm.length + 1) inm

/-- Loop of `checkIfMatch`: `*` succeeds, otherwise strong comparison. -/
def cimLoop (etHdr : Str) : Nat → Str → CondRes
  | 0, _ => .cFalse
  | fuel + 1, buf0 =>
    let buf := trimWS buf0
    match buf with
    | [] => .cFalse
    | c :: rest =>
      if c = ',' then cimLoop etHdr fuel rest
      else if c = '*' then .cTrue
      else
        let er := scanETag buf
        if er.1 = [] then .cFalse
        else if etagStrongMatch er.1 etHdr then .cTrue
        else cimLoop etHdr fuel er.2

/-- Model of net/http `checkIfMatch`. -/
def checkIfMatch (et : Option Str) (req : Request) : CondRes :=
  let im := hdrGet req.headers hIfMatch
  if im = [] then .cNone else cimLoop (et.getD []) (im.length + 1) im

/-- Model of `http.ParseTime` on the wire format of the conditional time
headers. Returning `none` treats every such header as unparseable, which
makes the time-based preconditions read as absent; no claim in this
development depends on time-header parsing, and the claims settled through
`serveContent` are exercised only on requests without time headers. -/
def httpParseTime (_s : Str) : Option Nat := none

/-- Model of net/http `checkIfUnmodifiedSince` (modtime `0` is the zero
time). -/
def checkIfUnmodifiedSince (req : Request) (modTime : Nat) : CondRes :=
  let ius := hdrGet req.headers hIfUnmodifiedSince
  if ius = [] ∨ modTime = 0 then .cNone
  else
    match httpParseTime ius with
    | none => .cNone
    | some t => if modTime < t + 1 then .cTrue else .cFalse

/-- Model of net/http `checkIfModifiedSince`. -/
def checkIfModifiedSince (req : Request) (modTime : Nat) : CondRes :=
  if req.method ≠ mGET ∧ req.method ≠ mHEAD then .cNone
  else
    let ims := hdrGet req.headers hIfModifiedSince
    if ims = [] ∨ modTime = 0 then .cNone
    else
      match httpParseTime ims with
      | none => .cNone
      | some t => if modTime < t + 1 then .cFalse else .cTrue

/-- Model of net/http `checkIfRange`. -/
def checkIfRange (et : Option Str) (req : Request) (modTime : Nat) : CondRes :=
  if req.method ≠ mGET ∧ req.method ≠ mHEAD then .cNone
  else
    let ir := hdrGet req.headers hIfRange
    if ir = [] then .cNone
    else
      let er := scanETag ir
      if er.1 ≠ [] then
        if etagStrongMatch er.1 (et.getD []) then .cTrue else .cFalse
      else if modTime = 0 then .cFalse
      else
        match httpParseTime ir with
        | none => .cFalse
        | some t => if t = modTime then .cTrue else .cFalse

inductive PreRes where
  | done412
  | done304
  | proceed (rangeReq : Str)
deriving DecidableEq

/-- Model of net/http `checkPreconditions`. -/
def checkPreconditions (et : Option Str) (req : Request) (modTime : Nat) : PreRes :=
  let ch0 := checkIfMatch et req
  let ch := if ch0 = .cNone then checkIfUnmodifiedSince req modTime else ch0
  if ch = .cFalse then .done412
  else
    match checkIfNoneMatch et req with
    | .cFalse =>
      if req.method = mGET ∨ req.method = mHEAD then .done304 else .done412
    | .cTrue => .proceed (rangeOf et req modTime)
    | .cNone =>
      if checkIfModifiedSince req modTime = .cFalse then .done304
      else .proceed (rangeOf et req modTime)
where
  rangeOf (et : Option Str) (req : Request) (modTime : Nat) : Str :=
    let rh := hdrGet req.headers hRange
    if rh ≠ [] ∧ checkIfRange et req modTime = .cFalse then [] else rh

/-! ## Range parsing and `http.ServeContent` -/

/-- Decimal digit string to value. -/
def parseDigits (s : Str) : Option Nat :=
  if s = [] then none
  else if s.all (fun c => decide ('0' ≤ c) && decide (c ≤ '9')) then
    some (s.foldl (fun acc c => acc * 10 + (c.toNat - '0'.toNat)) 0)
  else none

/-- Model of `strconv.ParseInt(s, 10, 64)` (64-bit overflow not modelled; no
claim involves numbers of that size). -/
def parseIntDec (s : Str) : Option Int :=
  match s with
  | '-' :: rest => (parseDigits rest).map (fun n => -(n : Int))
  | '+' :: rest => (parseDigits rest).map (fun n => (n : Int))
  | _ => (parseDigits s).map (fun n => (n : Int))

/-- Model of `strings.Cut(s, "-")`: the parts before and after the first
dash, if any. -/
def cutDash : Str → Option (Str × Str)
  | [] => none
  | c :: rest =>
    if c = '-' then some ([], rest)
    else
      match cutDash rest with
      | some (a, b) => some (c :: a, b)
      | none => none

/-- A byte range as produced by net/http `parseRange`. -/
structure HttpRange where
  start : Nat
  length : Nat
deriving DecidableEq

/-- Loop body of net/http `parseRange` over the comma-separated pieces:
returns the parsed ranges and whether a non-overlapping (start past EOF)
piece was seen, or an error for a malformed piece. -/
def parseRangePieces (size : Nat) : List Str → Except Unit (List HttpRange × Bool)
  | [] => .ok ([], false)
  | ra0 :: restPieces =>
    let ra := trimWS ra0
    if ra = [] then parseRangePieces size restPieces
    else
      match cutDash ra with
      | none => .error ()
      | some se =>
        let sStr := trimWS se.1
        let eStr := trimWS se.2
        if sStr = [] then
          if eStr = [] ∨ eStr.head? = some '-' then .error ()
          else
            match parseIntDec eStr with
            | none => .error ()
            | some i =>
              if i < 0 then .error ()
              else
                let i' := if i > (size : Int) then (size : Int) else i
                let start := size - i'.toNat
                match parseRangePieces size restPieces with
                | .error _ => .error ()
                | .ok rs => .ok (⟨start, size - start⟩ :: rs.1, rs.2)
        else
          match parseIntDec sStr with
          | none => .error ()
          | some i =>
            if i < 0 then .error ()
            else if (size : Int) ≤ i then
              match parseRangePieces size restPieces with
              | .error _ => .error ()
              | .ok rs => .ok (rs.1, true)
            else
              let start := i.toNat
              if eStr = [] then
                match parseRangePieces size restPieces with
                | .error _ => .error ()
                | .ok rs => .ok (⟨start, size - start⟩ :: rs.1, rs.2)
              else
                match parseIntDec eStr with
                | none => .error ()
                | some j =>
                  if j < 0 ∨ (start : Int) > j then .error ()
                  else
                    let j' := if (size : Int) ≤ j then size - 1 else j.toNat
                    match parseRangePieces size restPieces with
                    | .error _ => .error ()
                    | .ok rs => .ok (⟨start, j' - start + 1⟩ :: rs.1, rs.2)

inductive RangeErr where
  | invalid
  | noOverlap
deriving DecidableEq

/-- Model of net/http `parseRange`. -/
def parseRange (s : Str) (size : Nat) : Except RangeErr (List HttpRange) :=
  if s = [] then .ok []
  else if s.take 6 ≠ "bytes=".data then .error .invalid
  else
    match parseRangePieces size (splitOnChar ',' (s.drop 6)) with
    | .error _ => .error .invalid
    | .ok (ranges, noOverlap) =>
      if noOverlap ∧ ranges = [] then .error .noOverlap else .ok ranges

def sumRangesSize (rs : List HttpRange) : Nat :=
  (rs.map (fun r => r.length)).sum

def bodyRangeErrOverlap : Str := "invalid range: failed to overlap\n".data
def bodyRangeErr : Str := "invalid range\n".data

/-- Model of net/http `serveContent` as called by the handler (with the
already-set `Cache-Control` / `ETag` headers threaded through): evaluate the
preconditions, then serve the full content, a single range (206), or several
ranges (206; the MIME multipart framing of the body and its Content-Length
are not modelled — no claim depends on them). A 304 keeps `Cache-Control`
and `ETag` (`writeNotModified` deletes only `Content-Type`, `Content-Length`
and `Last-Modified`). -/
def serveContent (cc et : Option Str) (req : Request) (modTime : Nat)
    (content : List Nat) : Response :=
  match checkPreconditions et req modTime with
  | .done412 => ⟨412, cc, et, none, []⟩
  | .done304 => ⟨304, cc, et, none, []⟩
  | .proceed rangeReq =>
    let size := content.length
    match parseRange rangeReq size with
    | .error .noOverlap => ⟨416, cc, et, none, bytesOf bodyRangeErrOverlap⟩
    | .error .invalid => ⟨416, cc, et, none, bytesOf bodyRangeErr⟩
    | .ok ranges0 =>
      let ranges := if size < sumRangesSize ranges0 then [] else ranges0
      match ranges with
      | [] =>
        ⟨200, cc, et, some size, if req.method = mHEAD then [] else content⟩
      | [ra] =>
        ⟨206, cc, et, some ra.length,
          if req.method = mHEAD then [] else (content.drop ra.start).take ra.length⟩
      | _ =>
        ⟨206, cc, et, none,
          if req.method = mHEAD then []
          else (ranges.map (fun ra => (content.drop ra.start).take ra.length)).flatten⟩

/-! ## `fsHandler.ServeHTTP` -/

/-- Model of `strings.TrimPrefix(s, "/")`. -/
def trimOneSlash (s : Str) : Str :=
  match s with
  | '/' :: rest => rest
  | _ => s

/-- The cleaned filename the handler derives from the request URL path. -/
def serveFilename (urlPath : Str) : Str :=
  clean (if urlPath = ['/'] then ['.'] else trimOneSlash urlPath)

/-- Model of `fsHandler.ServeHTTP`: normalize the URL path, resolve it
through `(*FS).open`, map errors to 404/500, reject directories with 403,
set the caching headers when the name carries a digest, and serve the body
(via `serveContent` when the file is an `io.ReadSeeker`, else a plain 200
with the content copied unless the method is HEAD). -/
def serveHTTP (store : Store) (sha : List Nat → Str) (st : FSState)
    (req : Request) : Response × FSState :=
  let filename := serveFilename req.urlPath
  let o := openFS store sha st filename
  match o.file with
  | .error e =>
    (httpError (if e = .notExist then body404 else body500)
      (if e = .notExist then 404 else 500), o.st)
  | .ok f =>
    match f.info with
    | .error _ => (httpError body500 500, o.st)
    | .ok fi =>
      if fi.isDir then (httpError body403 403, o.st)
      else
        let cc := if o.hash ≠ [] then some ccValue else none
        let et := if o.hash ≠ [] then some ('"' :: o.hash ++ ['"']) else none
        if f.seeker then (serveContent cc et req fi.modTime f.content, o.st)
        else
          (⟨200, cc, et, some fi.size,
            if req.method ≠ mHEAD then f.content else []⟩, o.st)

/-! ## Auxiliary definitions for the verification -/

/-- A normal path element: nonempty, slash-free, not `.` and not `..`. -/
def normalElem (e : Str) : Prop := e ≠ [] ∧ '/' ∉ e ∧ e ≠ ['.'] ∧ e ≠ dotdot

/-- The shape invariant of stacks reachable by `cleanStep`: rooted stacks hold
only normal elements; unrooted stacks are normal elements stacked over a run
of `..` elements. -/
def WSStack : Bool → List Str → Prop
  | true, st => ∀ e ∈ st, normalElem e
  | false, st => ∃ a b, st = a ++ b ∧ (∀ e ∈ a, normalElem e) ∧ ∀ e ∈ b, e = dotdot

/-- The directory prefix contributed by the part of a stack below its top
element: everything `printStack` emits before the top element. -/
def stackDirPfx (r : Bool) (st : List Str) : Str :=
  if st = [] then (if r then ['/'] else [])
  else (if r then ['/'] else []) ++ joinSlash st.reverse ++ ['/']

/-- The tail-anchored digest condition asserted by the specification: the
pre-extension stem ends with a dash followed by exactly 64 lowercase-hex
characters. -/
def endsWithDashHex64 (pre : Str) : Bool :=
  decide (65 ≤ pre.length) &&
  decide (pre.drop (pre.length - 65) = '-' :: pre.drop (pre.length - 64)) &&
  (pre.drop (pre.length - 64)).all isHexChar

/-- A store honouring the `fs.FS` contract that only valid (slash-normalized)
path names resolve: every successfully read path is fixed by `path.Clean`. -/
def CleanStore (store : Store) : Prop :=
  ∀ p buf, store.readF p = .ok buf → clean p = p

/-- The digest primitive produces 64-character lowercase-hex strings, as
`hex.EncodeToString(sha256.Sum256 _)` does. -/
def HexDigest (sha : List Nat → Str) : Prop :=
  ∀ buf, (sha buf).length = 64 ∧ (sha buf).all isHexChar = true

/-- The reachability fact C6 rests on: every forward-cache entry was created
by a successful read of its path. It holds of the empty cache and is
preserved by every operation on any store. -/
def ReadableInv (store : Store) (st : FSState) : Prop :=
  ∀ p hn, lookA st.m p = some hn → ∃ buf, store.readF p = .ok buf

/-- The cache-consistency invariant: every forward entry `P ↦ H` was created
from a successful read of `P` whose digest `d` satisfies `H = FormatName P d`,
with the matching reverse entry `H ↦ (P, d)`; and conversely every reverse
entry mirrors a forward entry. -/
def CacheInv (store : Store) (sha : List Nat → Str) (st : FSState) : Prop :=
  (∀ p hn, lookA st.m p = some hn → ∃ buf, store.readF p = .ok buf ∧
    hn = FormatName p (sha buf) ∧ lookA st.r hn = some (p, sha buf)) ∧
  (∀ hn p d, lookA st.r hn = some (p, d) → ∃ buf, store.readF p = .ok buf ∧
    d = sha buf ∧ hn = FormatName p d ∧ lookA st.m p = some hn)

/-! ### Concrete inputs for witnesses and counterexamples -/

def hex64a : Str := List.replicate 64 'a'
def hex64z : Str := List.replicate 64 '0'

/-- A digest primitive instance for closed statements. -/
def shaZ : List Nat → Str := fun _ => hex64z

/-- C2 counterexample input: stem `a-<64 zeros>z`; the unanchored regex
matches internally although the stem does not end in dash-plus-64-hex. -/
def cexC2 : Str := 'a' :: '-' :: (hex64z ++ ['z'])

/-- The literal hashed-looking name `x-<64 zeros>`. -/
def zerosName : Str := 'x' :: '-' :: hex64z

/-- A store whose reads succeed on the two distinct names `x//y` and `x/y`
(an `fs.FS` implementation violating the valid-path contract). -/
def cexStoreC5 : Store :=
  ⟨fun _ => .error .notExist,
   fun p => if p = "x//y".data ∨ p = "x/y".data then .ok [] else .error .notExist⟩

/-- A store whose read succeeds on the empty name. -/
def cexStoreC7 : Store :=
  ⟨fun _ => .error .notExist,
   fun p => if p = [] then .ok [] else .error .notExist⟩

/-- A plain (non-ReadSeeker) regular file with three content bytes. -/
def plainFile : Fyle := ⟨.ok ⟨false, 3, 0⟩, [1, 2, 3], false⟩

/-- A ReadSeeker regular file with three content bytes. -/
def seekFile : Fyle := ⟨.ok ⟨false, 3, 0⟩, [1, 2, 3], true⟩

/-- C4 counterexample store: the literal name `x-<64 zeros>` exists as a plain
file, while `x` (the parsed base) does not exist, so the digest cannot
verify. -/
def cexStoreC4 : Store :=
  ⟨fun p => if p = zerosName then .ok plainFile else .error .notExist,
   fun _ => .error .notExist⟩

/-- C8 counterexample store: `x` is a ReadSeeker file. -/
def cexStoreC8 : Store :=
  ⟨fun p => if p = ['x'] then .ok seekFile else .error .notExist,
   fun _ => .error .notExist⟩

/-- C9 counterexample store: `x` is a ReadSeeker file whose content is
readable, so the hashed name `x-<64 zeros>` verifies under `shaZ`. -/
def cexStoreC9 : Store :=
  ⟨fun p => if p = ['x'] then .ok seekFile else .error .notExist,
   fun p => if p = ['x'] then .ok [1, 2, 3] else .error .notExist⟩

/-- A store with one plain readable file `a/b.txt` (for witnesses). -/
def witStore : Store :=
  ⟨fun p => if p = "a/b.txt".data then .ok plainFile else .error .notExist,
   fun p => if p = "a/b.txt".data then .ok [1, 2, 3] else .error .notExist⟩

/-! ## List helper lemmas -/

theorem splitOnChar_ne_nil (sep : Char) (l : Str) : splitOnChar sep l ≠ [] := by
  cases l with
  | nil => simp [splitOnChar]
  | cons c rest =>
    simp only [splitOnChar]
    split
    · simp
    · split <;> simp

theorem splitOnChar_append (sep : Char) (xs ys : Str) :
    splitOnChar sep (xs ++ sep :: ys) = splitOnChar sep xs ++ splitOnChar sep ys := by
  induction xs with
  | nil => simp [splitOnChar]
  | cons c xs ih =>
    obtain ⟨e, es, he⟩ : ∃ e es, splitOnChar sep xs = e :: es := by
      cases h : splitOnChar sep xs with
      | nil => exact absurd h (splitOnChar_ne_nil sep xs)
      | cons e es => exact ⟨e, es, rfl⟩
    by_cases hc : c = sep
    · simp [splitOnChar, hc, ih]
    · simp only [List.cons_append, splitOnChar, List.append_eq, if_neg hc, ih, he,
        List.cons_append]

theorem splitOnChar_of_not_mem (sep : Char) (e : Str) (h : sep ∉ e) :
    splitOnChar sep e = [e] := by
  induction e with
  | nil => rfl
  | cons c rest ih =>
    simp only [List.mem_cons, not_or] at h
    have hc : ¬ c = sep := fun hc => h.1 hc.symm
    simp only [splitOnChar, if_neg hc, ih h.2]

theorem splitOnChar_not_mem (sep : Char) (l : Str) :
    ∀ e ∈ splitOnChar sep l, sep ∉ e := by
  induction l with
  | nil => simp [splitOnChar]
  | cons c rest ih =>
    obtain ⟨e, es, he⟩ : ∃ e es, splitOnChar sep rest = e :: es := by
      cases h : splitOnChar sep rest with
      | nil => exact absurd h (splitOnChar_ne_nil sep rest)
      | cons e es => exact ⟨e, es, rfl⟩
    have hmem_e : e ∈ splitOnChar sep rest := by rw [he]; exact List.mem_cons_self e es
    by_cases hc : c = sep
    · simp only [splitOnChar, if_pos hc]
      intro x hx
      rcases List.mem_cons.mp hx with h | h
      · subst h; simp
      · exact ih x h
    · simp only [splitOnChar, if_neg hc, he]
      intro x hx
      rcases List.mem_cons.mp hx with h | h
      · subst h
        simp only [List.mem_cons, not_or]
        exact ⟨fun h' => hc h'.symm, ih e hmem_e⟩
      · exact ih x (by rw [he]; exact List.mem_cons_of_mem e h)

theorem joinSlash_append_single (xs : List Str) (y : Str) (h : xs ≠ []) :
    joinSlash (xs ++ [y]) = joinSlash xs ++ '/' :: y := by
  induction xs with
  | nil => exact absurd rfl h
  | cons e xs ih =>
    cases xs with
    | nil => simp [joinSlash]
    | cons e' xs' =>
      have ih' := ih (by simp)
      show e ++ '/' :: joinSlash ((e' :: xs') ++ [y]) =
        (e ++ '/' :: joinSlash (e' :: xs')) ++ '/' :: y
      rw [ih']
      simp

theorem joinSlash_head (e : Str) (es : List Str) (h : e ≠ []) :
    (joinSlash (e :: es)).head? = e.head? := by
  obtain ⟨c, e', rfl⟩ : ∃ c e', e = c :: e' := by
    cases e with
    | nil => exact absurd rfl h
    | cons c e' => exact ⟨c, e', rfl⟩
  cases es <;> simp [joinSlash]

theorem takeWhile_middle {α : Type} (p : α → Bool) (l₁ l₂ : List α) (c : α)
    (h₁ : ∀ x ∈ l₁, p x = true) (hc : p c = false) :
    (l₁ ++ c :: l₂).takeWhile p = l₁ := by
  induction l₁ with
  | nil => simp [List.takeWhile_cons, hc]
  | cons a l₁ ih =>
    have ha : p a = true := h₁ a (List.mem_cons_self a l₁)
    simp only [List.cons_append, List.takeWhile_cons, ha, if_true]
    rw [ih (fun x hx => h₁ x (List.mem_cons_of_mem a hx))]

theorem dropWhile_middle {α : Type} (p : α → Bool) (l₁ l₂ : List α) (c : α)
    (h₁ : ∀ x ∈ l₁, p x = true) (hc : p c = false) :
    (l₁ ++ c :: l₂).dropWhile p = c :: l₂ := by
  induction l₁ with
  | nil => simp [List.dropWhile_cons, hc]
  | cons a l₁ ih =>
    have ha : p a = true := h₁ a (List.mem_cons_self a l₁)
    simp only [List.cons_append, List.dropWhile_cons, ha, if_true]
    exact ih (fun x hx => h₁ x (List.mem_cons_of_mem a hx))

theorem takeWhile_all {α : Type} (p : α → Bool) (l : List α)
    (h : ∀ x ∈ l, p x = true) : l.takeWhile p = l := by
  induction l with
  | nil => rfl
  | cons a l ih =>
    simp only [List.takeWhile_cons, h a (List.mem_cons_self a l), if_true]
    rw [ih (fun x hx => h x (List.mem_cons_of_mem a hx))]

theorem dropWhile_all {α : Type} (p : α → Bool) (l : List α)
    (h : ∀ x ∈ l, p x = true) : l.dropWhile p = [] := by
  induction l with
  | nil => rfl
  | cons a l ih =>
    simp only [List.dropWhile_cons, h a (List.mem_cons_self a l), if_true]
    exact ih (fun x hx => h x (List.mem_cons_of_mem a hx))

theorem dropWhile_ne_nil_of_exists {α : Type} (p : α → Bool) (l : List α)
    (a : α) (ha : a ∈ l) (hpa : p a = false) : l.dropWhile p ≠ [] := by
  induction l with
  | nil => simp at ha
  | cons b l ih =>
    simp only [List.dropWhile_cons]
    rcases List.mem_cons.mp ha with h | h
    · subst h
      simp [hpa]
    · split
      · exact ih h
      · simp

theorem dropWhile_head_false {α : Type} (p : α → Bool) (l : List α) :
    ∀ c rest, l.dropWhile p = c :: rest → p c = false := by
  induction l with
  | nil => intro c rest h; simp at h
  | cons b l ih =>
    intro c rest h
    rw [List.dropWhile_cons] at h
    split at h
    · exact ih c rest h
    · next hb =>
      cases h
      exact Bool.eq_false_iff.mpr hb

theorem dotdot_not_normal : ¬ normalElem dotdot := by
  intro h
  exact h.2.2.2 rfl

theorem wsStack_nil (r : Bool) : WSStack r [] := by
  cases r
  · exact ⟨[], [], rfl, by simp, by simp⟩
  · intro e he; simp at he

theorem wsStack_elem {r : Bool} {st : List Str} (h : WSStack r st) :
    ∀ e ∈ st, e ≠ [] ∧ '/' ∉ e ∧ e ≠ ['.'] := by
  intro e he
  cases r with
  | true =>
    obtain ⟨h1, h2, h3, _⟩ := h e he
    exact ⟨h1, h2, h3⟩
  | false =>
    obtain ⟨a, b, rfl, ha, hb⟩ := h
    rcases List.mem_append.mp he with h' | h'
    · obtain ⟨h1, h2, h3, _⟩ := ha e h'
      exact ⟨h1, h2, h3⟩
    · rw [hb e h']
      refine ⟨by simp [dotdot], ?_, by simp [dotdot]⟩
      simp [dotdot]

theorem wsStack_tail {r : Bool} {y : Str} {st : List Str}
    (h : WSStack r (y :: st)) : WSStack r st := by
  cases r with
  | true => exact fun e he => h e (List.mem_cons_of_mem y he)
  | false =>
    obtain ⟨a, b, hab, ha, hb⟩ := h
    cases a with
    | nil =>
      simp only [List.nil_append] at hab
      exact ⟨[], st, by simp, by simp, fun e he => hb e (hab ▸ List.mem_cons_of_mem y he)⟩
    | cons x a' =>
      rw [List.cons_append] at hab
      injection hab with h1 h2
      subst h2
      exact ⟨a', b, rfl, fun e he => ha e (List.mem_cons_of_mem x he), hb⟩

theorem wsStack_cons_normal {r : Bool} {e : Str} {st : List Str}
    (hne : normalElem e) (h : WSStack r st) : WSStack r (e :: st) := by
  cases r with
  | true =>
    intro x hx
    rcases List.mem_cons.mp hx with h' | h'
    · exact h'.symm ▸ hne
    · exact h x h'
  | false =>
    obtain ⟨a, b, rfl, ha, hb⟩ := h
    refine ⟨e :: a, b, by simp, ?_, hb⟩
    intro x hx
    rcases List.mem_cons.mp hx with h' | h'
    · exact h'.symm ▸ hne
    · exact ha x h'

theorem cleanStep_nil_elem (r : Bool) (st : List Str) : cleanStep r st [] = st := by
  simp [cleanStep]

theorem cleanStep_dotdot_true (st : List Str) :
    cleanStep true st dotdot = st.tail := by
  unfold cleanStep
  rw [if_neg (by simp [dotdot]), if_pos rfl]
  simp

theorem cleanStep_dotdot_false (st : List Str) :
    cleanStep false st dotdot =
      match st with
      | [] => [dotdot]
      | x :: xs => if x = dotdot then dotdot :: x :: xs else xs := by
  unfold cleanStep
  rw [if_neg (by simp [dotdot]), if_pos rfl]
  simp

theorem cleanStep_normal (r : Bool) (st : List Str) (e : Str)
    (h1 : e ≠ []) (h2 : e ≠ ['.']) (h3 : e ≠ dotdot) :
    cleanStep r st e = e :: st := by
  unfold cleanStep
  rw [if_neg (by simp [h1, h2]), if_neg h3]

theorem cleanStep_ws {r : Bool} {st : List Str} {e : Str}
    (hs : '/' ∉ e) (h : WSStack r st) : WSStack r (cleanStep r st e) := by
  by_cases h1 : e = [] ∨ e = ['.']
  · rw [show cleanStep r st e = st by unfold cleanStep; rw [if_pos h1]]
    exact h
  · by_cases h2 : e = dotdot
    · subst h2
      cases r with
      | true =>
        rw [cleanStep_dotdot_true]
        cases st with
        | nil => exact h
        | cons y st' => exact wsStack_tail h
      | false =>
        rw [cleanStep_dotdot_false]
        cases st with
        | nil => exact ⟨[], [dotdot], rfl, by simp, by simp⟩
        | cons x xs =>
          show WSStack false (if x = dotdot then dotdot :: x :: xs else xs)
          by_cases hx : x = dotdot
          · rw [if_pos hx]
            obtain ⟨a, b, hab, ha, hb⟩ := h
            cases a with
            | nil =>
              simp only [List.nil_append] at hab
              refine ⟨[], dotdot :: x :: xs, by simp, by simp, fun z hz => ?_⟩
              rcases List.mem_cons.mp hz with h' | h'
              · exact h'
              · exact hb z (hab ▸ h')
            | cons w a' =>
              rw [List.cons_append] at hab
              injection hab with hw _
              have hnw : normalElem w := ha w (List.mem_cons_self w a')
              rw [← hw, hx] at hnw
              exact absurd rfl hnw.2.2.2
          · rw [if_neg hx]
            exact wsStack_tail h
    · rcases not_or.mp h1 with ⟨hne, hdot⟩
      rw [cleanStep_normal r st e hne hdot h2]
      exact wsStack_cons_normal ⟨hne, hs, hdot, h2⟩ h

theorem foldl_cleanStep_ws {r : Bool} {st : List Str} {l : List Str}
    (hl : ∀ e ∈ l, '/' ∉ e) (h : WSStack r st) :
    WSStack r (List.foldl (cleanStep r) st l) := by
  induction l generalizing st with
  | nil => exact h
  | cons e l ih =>
    rw [List.foldl_cons]
    exact ih (fun x hx => hl x (List.mem_cons_of_mem e hx))
      (cleanStep_ws (hl e (List.mem_cons_self e l)) h)

theorem foldl_cleanStep_reverse {r : Bool} {st : List Str} (h : WSStack r st) :
    List.foldl (cleanStep r) [] st.reverse = st := by
  induction st with
  | nil => rfl
  | cons y st' ih =>
    rw [List.reverse_cons, List.foldl_append, ih (wsStack_tail h)]
    show cleanStep r st' y = y :: st'
    obtain ⟨hyne, hys, hydot⟩ := wsStack_elem h y (List.mem_cons_self y st')
    by_cases h2 : y = dotdot
    · subst h2
      cases r with
      | true =>
        exact absurd (h dotdot (List.mem_cons_self dotdot st')) dotdot_not_normal
      | false =>
        rw [cleanStep_dotdot_false]
        obtain ⟨a, b, hab, ha, hb⟩ := h
        have hst' : ∀ e ∈ st', e = dotdot := by
          cases a with
          | nil =>
            simp only [List.nil_append] at hab
            exact fun e he => hb e (hab ▸ List.mem_cons_of_mem dotdot he)
          | cons w a' =>
            rw [List.cons_append] at hab
            injection hab with hw _
            have hnw : normalElem w := ha w (List.mem_cons_self w a')
            rw [← hw] at hnw
            exact absurd rfl hnw.2.2.2
        cases st' with
        | nil => rfl
        | cons x xs =>
          show (if x = dotdot then dotdot :: x :: xs else xs) = dotdot :: x :: xs
          rw [if_pos (hst' x (List.mem_cons_self x xs))]
    · rw [cleanStep_normal r st' y hyne hydot h2]

/-! ## Printing stacks and `clean` structure -/

theorem printStack_cons (r : Bool) (y : Str) (st : List Str) (hy : y ≠ []) :
    printStack r (y :: st) = stackDirPfx r st ++ y := by
  cases st with
  | nil =>
    show (let out := joinSlash [y]; if r then '/' :: out
      else if out = [] then ['.'] else out) = _
    cases r with
    | true => simp [joinSlash, stackDirPfx]
    | false => simp [joinSlash, stackDirPfx, hy]
  | cons z st' =>
    have hrev : (y :: z :: st').reverse = (z :: st').reverse ++ [y] := by
      simp
    have hne : (z :: st').reverse ≠ [] := by simp
    show (let out := joinSlash ((y :: z :: st').reverse); if r then '/' :: out
      else if out = [] then ['.'] else out) = _
    rw [hrev, joinSlash_append_single _ y hne]
    have hout : joinSlash ((z :: st').reverse) ++ '/' :: y ≠ [] := by simp
    cases r with
    | true => simp [stackDirPfx]
    | false => simp [stackDirPfx, hout]

theorem stackDirPfx_shape (r : Bool) (st : List Str) :
    stackDirPfx r st = [] ∨ ∃ q, stackDirPfx r st = q ++ ['/'] := by
  unfold stackDirPfx
  by_cases h : st = []
  · rw [if_pos h]
    cases r with
    | true => exact Or.inr ⟨[], by simp⟩
    | false => exact Or.inl (by simp)
  · rw [if_neg h]
    exact Or.inr ⟨(if r then ['/'] else []) ++ joinSlash st.reverse, by simp⟩

theorem clean_cons (c : Char) (rest : Str) :
    clean (c :: rest) = printStack (decide (c = '/'))
      (List.foldl (cleanStep (decide (c = '/'))) [] (splitSlash (c :: rest))) := rfl

theorem clean_ne_nil (p : Str) : clean p ≠ [] := by
  cases p with
  | nil => simp [clean]
  | cons c rest =>
    rw [clean_cons]
    unfold printStack
    cases h : decide (c = '/') with
    | true => simp
    | false =>
      simp only [Bool.false_eq_true, if_false]
      split <;> simp_all

theorem splitSlash_cons_slash (l : Str) : splitSlash ('/' :: l) = [] :: splitSlash l := by
  simp [splitSlash, splitOnChar]

theorem foldl_cleanStep_skip (r : Bool) (st : List Str) (B : List Str) :
    List.foldl (cleanStep r) st ([] :: B) = List.foldl (cleanStep r) st B := by
  rw [List.foldl_cons, cleanStep_nil_elem]

theorem splitSlash_joinSlash (es : List Str) (h : ∀ e ∈ es, '/' ∉ e) (hne : es ≠ []) :
    splitSlash (joinSlash es) = es := by
  induction es with
  | nil => exact absurd rfl hne
  | cons e es ih =>
    cases es with
    | nil => exact splitOnChar_of_not_mem '/' e (h e (List.mem_cons_self e []))
    | cons e' es' =>
      show splitSlash (e ++ '/' :: joinSlash (e' :: es')) = e :: e' :: es'
      rw [show splitSlash (e ++ '/' :: joinSlash (e' :: es')) =
            splitOnChar '/' e ++ splitSlash (joinSlash (e' :: es')) from
          splitOnChar_append '/' e (joinSlash (e' :: es'))]
      rw [splitOnChar_of_not_mem '/' e (h e (List.mem_cons_self e _)),
        ih (fun x hx => h x (List.mem_cons_of_mem e hx)) (by simp)]
      rfl

theorem foldl_collapse (r : Bool) (q b : Str) :
    List.foldl (cleanStep r) [] (splitSlash (q ++ ['/'] ++ '/' :: b)) =
      List.foldl (cleanStep r) [] (splitSlash (q ++ ['/'] ++ b)) := by
  have e1 : q ++ ['/'] ++ '/' :: b = q ++ '/' :: ('/' :: b) := by simp
  have e2 : q ++ ['/'] ++ b = q ++ '/' :: b := by simp
  rw [e1, e2,
    show splitSlash (q ++ '/' :: ('/' :: b)) = splitOnChar '/' q ++ splitSlash ('/' :: b)
      from splitOnChar_append '/' q ('/' :: b),
    show splitSlash (q ++ '/' :: b) = splitOnChar '/' q ++ splitSlash b
      from splitOnChar_append '/' q b,
    splitSlash_cons_slash, List.foldl_append, List.foldl_append, foldl_cleanStep_skip]

theorem clean_collapse (q b : Str) :
    clean (q ++ ['/'] ++ '/' :: b) = clean (q ++ ['/'] ++ b) := by
  cases q with
  | nil =>
    show clean ('/' :: '/' :: b) = clean ('/' :: b)
    rw [clean_cons, clean_cons]
    have hc := foldl_collapse (decide ('/' = '/')) [] b
    rw [show ([] ++ ['/'] ++ '/' :: b : Str) = '/' :: '/' :: b from rfl,
        show ([] ++ ['/'] ++ b : Str) = '/' :: b from rfl] at hc
    rw [hc]
  | cons c q' =>
    rw [show ((c :: q') ++ ['/'] ++ '/' :: b : Str) = c :: (q' ++ ['/'] ++ '/' :: b) by simp,
        show ((c :: q') ++ ['/'] ++ b : Str) = c :: (q' ++ ['/'] ++ b) by simp,
        clean_cons, clean_cons,
        show (c :: (q' ++ ['/'] ++ '/' :: b) : Str) = (c :: q') ++ ['/'] ++ '/' :: b by simp,
        show (c :: (q' ++ ['/'] ++ b) : Str) = (c :: q') ++ ['/'] ++ b by simp,
        foldl_collapse]

theorem clean_no_slash (e : Str) (he : e ≠ []) (hs : '/' ∉ e) (h1 : e ≠ ['.'])
    (h2 : e ≠ dotdot) : clean e = e := by
  obtain ⟨c, rest, rfl⟩ : ∃ c rest, e = c :: rest := by
    cases e with
    | nil => exact absurd rfl he
    | cons c rest => exact ⟨c, rest, rfl⟩
  rw [clean_cons]
  have hc : ¬ (c = '/') := fun h => hs (by rw [← h] at *; exact List.mem_cons_self c rest)
  rw [show (decide (c = '/')) = false by simp [hc]]
  rw [show splitSlash (c :: rest) = [c :: rest] from splitOnChar_of_not_mem '/' _ hs]
  rw [List.foldl_cons, cleanStep_normal false [] _ he h1 h2]
  show printStack false [c :: rest] = c :: rest
  unfold printStack
  simp [joinSlash]

theorem clean_printStack {r : Bool} {st : List Str} (h : WSStack r st) :
    clean (printStack r st) = printStack r st := by
  cases st with
  | nil =>
    cases r with
    | true => rfl
    | false => rfl
  | cons y st' =>
    have hel := wsStack_elem h
    have hrevne : (y :: st').reverse ≠ [] := by simp
    have hels : ∀ e ∈ (y :: st').reverse, '/' ∉ e :=
      fun e he => (hel e (List.mem_reverse.mp he)).2.1
    have hsp : splitSlash (joinSlash ((y :: st').reverse)) = (y :: st').reverse :=
      splitSlash_joinSlash _ hels hrevne
    cases r with
    | true =>
      show clean ('/' :: joinSlash ((y :: st').reverse)) = _
      rw [clean_cons]
      have hr : (decide ('/' = '/')) = true := by decide
      rw [hr, splitSlash_cons_slash, foldl_cleanStep_skip, hsp,
        foldl_cleanStep_reverse h]
    | false =>
      obtain ⟨e₀, revRest, hrev⟩ : ∃ e₀ revRest, (y :: st').reverse = e₀ :: revRest := by
        cases hr : (y :: st').reverse with
        | nil => exact absurd hr (by simp)
        | cons e₀ revRest => exact ⟨e₀, revRest, rfl⟩
      have he₀mem : e₀ ∈ (y :: st').reverse := by rw [hrev]; exact List.mem_cons_self e₀ revRest
      have he₀p := hel e₀ (List.mem_reverse.mp he₀mem)
      obtain ⟨c₀, e₀', rfl⟩ : ∃ c₀ e₀', e₀ = c₀ :: e₀' := by
        cases e₀ with
        | nil => exact absurd rfl he₀p.1
        | cons c₀ e₀' => exact ⟨c₀, e₀', rfl⟩
      have hc₀ : ¬ (c₀ = '/') :=
        fun hh => he₀p.2.1 (by rw [← hh] at *; exact List.mem_cons_self c₀ e₀')
      obtain ⟨t, hout⟩ : ∃ t, joinSlash ((y :: st').reverse) = c₀ :: t := by
        rw [hrev]
        cases revRest with
        | nil => exact ⟨e₀', rfl⟩
        | cons a as => exact ⟨e₀' ++ '/' :: joinSlash (a :: as), rfl⟩
      have houtne : joinSlash ((y :: st').reverse) ≠ [] := by rw [hout]; simp
      have hps : printStack false (y :: st') = joinSlash ((y :: st').reverse) := by
        show (if joinSlash ((y :: st').reverse) = [] then ['.']
          else joinSlash ((y :: st').reverse)) = joinSlash ((y :: st').reverse)
        exact if_neg houtne
      rw [hps, hout, clean_cons]
      have hr : (decide (c₀ = '/')) = false := by simp [hc₀]
      rw [hr, ← hout, hsp, foldl_cleanStep_reverse h]
      exact hps

theorem clean_fix_decomp {p : Str} (hp : clean p = p) (hne : p ≠ []) :
    ∃ r S, WSStack r S ∧ p = printStack r S := by
  obtain ⟨c, rest, rfl⟩ : ∃ c rest, p = c :: rest := by
    cases p with
    | nil => exact absurd rfl hne
    | cons c rest => exact ⟨c, rest, rfl⟩
  refine ⟨decide (c = '/'),
    List.foldl (cleanStep (decide (c = '/'))) [] (splitSlash (c :: rest)), ?_, ?_⟩
  · exact foldl_cleanStep_ws (splitOnChar_not_mem '/' _) (wsStack_nil _)
  · conv_lhs => rw [← hp]
    exact clean_cons c rest

/-! ## `splitDir` and `goJoin` on clean paths -/

theorem splitDir_no_slash (y : Str) (hy : '/' ∉ y) : splitDir y = ([], y) := by
  unfold splitDir
  have h1 : y.reverse.takeWhile (fun c => decide (c ≠ '/')) = y.reverse :=
    takeWhile_all _ _ (fun x hx => by
      have hne : x ≠ '/' := fun he => hy (he ▸ List.mem_reverse.mp hx)
      simp [hne])
  rw [h1]
  simp

theorem splitDir_append_slash (q' y : Str) (hy : '/' ∉ y) :
    splitDir ((q' ++ ['/']) ++ y) = (q' ++ ['/'], y) := by
  unfold splitDir
  have hrev : ((q' ++ ['/']) ++ y).reverse = y.reverse ++ '/' :: q'.reverse := by simp
  rw [hrev]
  have h1 : (y.reverse ++ '/' :: q'.reverse).takeWhile (fun c => decide (c ≠ '/')) =
      y.reverse :=
    takeWhile_middle _ _ _ _
      (fun x hx => by
        have hne : x ≠ '/' := fun he => hy (he ▸ List.mem_reverse.mp hx)
        simp [hne])
      (by simp)
  rw [h1, List.reverse_reverse]
  show (List.take (((q' ++ ['/']) ++ y).length - y.length) ((q' ++ ['/']) ++ y), y) =
    (q' ++ ['/'], y)
  have hlen : ((q' ++ ['/']) ++ y).length - y.length = (q' ++ ['/']).length := by
    simp [List.length_append]
    omega
  rw [hlen, List.take_left]

theorem splitDir_append (q y : Str) (hq : q = [] ∨ ∃ q', q = q' ++ ['/'])
    (hy : '/' ∉ y) : splitDir (q ++ y) = (q, y) := by
  rcases hq with rfl | ⟨q', rfl⟩
  · rw [List.nil_append]
    exact splitDir_no_slash y hy
  · exact splitDir_append_slash q' y hy

theorem splitDir_spec (p : Str) :
    p = (splitDir p).1 ++ (splitDir p).2 ∧ '/' ∉ (splitDir p).2 ∧
      ((splitDir p).1 = [] ∨ ∃ q, (splitDir p).1 = q ++ ['/']) := by
  have hsplit : p.reverse.takeWhile (fun c => decide (c ≠ '/')) ++
      p.reverse.dropWhile (fun c => decide (c ≠ '/')) = p.reverse :=
    List.takeWhile_append_dropWhile _ _
  have hp : p = (p.reverse.dropWhile (fun c => decide (c ≠ '/'))).reverse ++
      (p.reverse.takeWhile (fun c => decide (c ≠ '/'))).reverse := by
    have h2 := congrArg List.reverse hsplit
    rw [List.reverse_append, List.reverse_reverse] at h2
    exact h2.symm
  have hv : '/' ∉ (p.reverse.takeWhile (fun c => decide (c ≠ '/'))).reverse := by
    intro hmem
    have h3 := List.mem_takeWhile_imp (List.mem_reverse.mp hmem)
    simp at h3
  have hu : (p.reverse.dropWhile (fun c => decide (c ≠ '/'))).reverse = [] ∨
      ∃ q, (p.reverse.dropWhile (fun c => decide (c ≠ '/'))).reverse = q ++ ['/'] := by
    cases hdwc : p.reverse.dropWhile (fun c => decide (c ≠ '/')) with
    | nil => left; simp
    | cons d rest =>
      right
      have hd : (fun c => decide (c ≠ '/')) d = false :=
        dropWhile_head_false _ _ d rest hdwc
      have hds : d = '/' := by simpa using hd
      exact ⟨rest.reverse, by rw [List.reverse_cons, hds]⟩
  have hsd := splitDir_append _ _ hu hv
  rw [← hp] at hsd
  rw [hsd]
  exact ⟨hp, hv, hu⟩

theorem clean_root_normal (b' : Str) (h1 : '/' ∉ b') (h2 : b' ≠ []) (h3 : b' ≠ ['.'])
    (h4 : b' ≠ dotdot) : clean ('/' :: b') = '/' :: b' := by
  have hws : WSStack true [b'] := wsStack_cons_normal ⟨h2, h1, h3, h4⟩ (wsStack_nil true)
  have hcp := clean_printStack hws
  have hpr : printStack true [b'] = '/' :: b' := rfl
  rw [hpr] at hcp
  exact hcp

theorem goJoin_splitDir {p : Str} (hp : clean p = p) (hne : p ≠ []) :
    goJoin (splitDir p).1 (splitDir p).2 = p := by
  obtain ⟨heq, _, hshape⟩ := splitDir_spec p
  rcases hshape with hd | ⟨q, hd⟩
  · unfold goJoin
    rw [if_pos hd]
    have hbp : (splitDir p).2 = p := by
      conv_rhs => rw [heq, hd, List.nil_append]
    rw [hbp, if_neg hne, hp]
  · unfold goJoin
    rw [if_neg (by rw [hd]; simp)]
    calc clean ((splitDir p).1 ++ '/' :: (splitDir p).2)
        = clean (q ++ ['/'] ++ '/' :: (splitDir p).2) := by rw [hd]
      _ = clean (q ++ ['/'] ++ (splitDir p).2) := clean_collapse q _
      _ = clean p := by rw [← hd, ← heq]
      _ = p := hp

theorem goJoin_normal {p : Str} (hp : clean p = p) (hne : p ≠ []) (b' : Str)
    (h1 : '/' ∉ b') (h2 : b' ≠ []) (h3 : b' ≠ ['.']) (h4 : b' ≠ dotdot) :
    goJoin (splitDir p).1 b' = (splitDir p).1 ++ b' := by
  obtain ⟨heq, _, hshape⟩ := splitDir_spec p
  rcases hshape with hd | ⟨q, hd⟩
  · unfold goJoin
    rw [if_pos hd, if_neg h2, clean_no_slash b' h2 h1 h3 h4, hd, List.nil_append]
  · unfold goJoin
    rw [if_neg (by rw [hd]; simp)]
    obtain ⟨r, S, hws, hpr⟩ := clean_fix_decomp hp hne
    cases S with
    | nil =>
      cases r with
      | true =>
        have hpv : p = ['/'] := by rw [hpr]; rfl
        have hsd : splitDir p = (['/'], []) := by rw [hpv]; rfl
        rw [hsd]
        calc clean (['/'] ++ '/' :: b')
            = clean ([] ++ ['/'] ++ '/' :: b') := rfl
          _ = clean ([] ++ ['/'] ++ b') := clean_collapse [] b'
          _ = clean ('/' :: b') := rfl
          _ = '/' :: b' := clean_root_normal b' h1 h2 h3 h4
          _ = ['/'] ++ b' := rfl
      | false =>
        have hpv : p = ['.'] := by rw [hpr]; rfl
        rw [hpv] at hd
        have : splitDir (['.'] : Str) = ([], ['.']) := rfl
        rw [this] at hd
        exact absurd hd.symm (by simp)
    | cons y S' =>
      have hy := wsStack_elem hws y (List.mem_cons_self y S')
      have hpc : p = stackDirPfx r S' ++ y := by
        rw [hpr]
        exact printStack_cons r y S' hy.1
      have hsd : splitDir p = (stackDirPfx r S', y) := by
        rw [hpc]
        exact splitDir_append _ y (stackDirPfx_shape r S') hy.2.1
      rw [hsd] at hd ⊢
      have hd' : stackDirPfx r S' = q ++ ['/'] := hd
      show clean (stackDirPfx r S' ++ '/' :: b') = stackDirPfx r S' ++ b'
      calc clean (stackDirPfx r S' ++ '/' :: b')
          = clean (q ++ ['/'] ++ '/' :: b') := by rw [← hd']
        _ = clean (q ++ ['/'] ++ b') := clean_collapse q b'
        _ = clean (stackDirPfx r S' ++ b') := by rw [hd']
        _ = clean (printStack r (b' :: S')) := by rw [printStack_cons r b' S' h2]
        _ = printStack r (b' :: S') :=
            clean_printStack (wsStack_cons_normal ⟨h2, h1, h3, h4⟩ (wsStack_tail hws))
        _ = stackDirPfx r S' ++ b' := printStack_cons r b' S' h2

/-! ## The naming codec on clean paths -/

theorem isHexChar_ne (c : Char) (h : isHexChar c = true) :
    c ≠ '/' ∧ c ≠ '.' ∧ c ≠ '-' := by
  refine ⟨?_, ?_, ?_⟩ <;> rintro rfl <;> exact absurd h (by decide)

theorem hex_all_not_mem (h : Str) (hhex : h.all isHexChar = true) :
    '/' ∉ h ∧ '.' ∉ h := by
  rw [List.all_eq_true] at hhex
  constructor <;> intro hmem
  · exact absurd rfl (isHexChar_ne '/' (hhex '/' hmem)).1
  · exact absurd rfl (isHexChar_ne '.' (hhex '.' hmem)).2.1

theorem hashSuffixMatch_len (s : Str) (h : hashSuffixMatch s = true) : 65 ≤ s.length := by
  induction s with
  | nil => exact absurd h (by simp [hashSuffixMatch])
  | cons c rest ih =>
    simp only [hashSuffixMatch, Bool.or_eq_true, Bool.and_eq_true, decide_eq_true_eq] at h
    rcases h with ⟨⟨_, hlen⟩, _⟩ | h
    · simp only [List.length_cons]
      omega
    · have := ih h
      simp only [List.length_cons]
      omega

theorem hashSuffixMatch_tail (s h : Str) (hlen : h.length = 64)
    (hhex : h.all isHexChar = true) : hashSuffixMatch (s ++ '-' :: h) = true := by
  induction s with
  | nil =>
    simp only [List.nil_append, hashSuffixMatch, Bool.or_eq_true, Bool.and_eq_true,
      decide_eq_true_eq]
    left
    refine ⟨⟨trivial, by omega⟩, ?_⟩
    rw [List.take_of_length_le (by omega)]
    exact hhex
  | cons c s ih =>
    simp only [List.cons_append, hashSuffixMatch, Bool.or_eq_true]
    right
    exact ih

theorem hashSuffixMatch_iff (s : Str) :
    hashSuffixMatch s = true ↔
      ∃ a h t, s = a ++ '-' :: (h ++ t) ∧ h.length = 64 ∧ h.all isHexChar = true := by
  constructor
  · intro hm
    induction s with
    | nil => exact absurd hm (by simp [hashSuffixMatch])
    | cons c rest ih =>
      simp only [hashSuffixMatch, Bool.or_eq_true, Bool.and_eq_true,
        decide_eq_true_eq] at hm
      rcases hm with ⟨⟨hc, hlen⟩, hhex⟩ | hm
      · refine ⟨[], rest.take 64, rest.drop 64, ?_, ?_, hhex⟩
        · rw [List.nil_append, hc, List.take_append_drop]
        · rw [List.length_take]
          omega
      · obtain ⟨a, h, t, heq, hl, hx⟩ := ih hm
        exact ⟨c :: a, h, t, by rw [List.cons_append, heq], hl, hx⟩
  · rintro ⟨a, h, t, rfl, hl, hx⟩
    induction a with
    | nil =>
      simp only [List.nil_append, hashSuffixMatch, Bool.or_eq_true, Bool.and_eq_true,
        decide_eq_true_eq]
      left
      refine ⟨⟨trivial, by simp [List.length_append]; omega⟩, ?_⟩
      rw [List.take_left' hl]
      exact hx
    | cons c a ih =>
      simp only [List.cons_append, hashSuffixMatch, Bool.or_eq_true]
      right
      exact ih

theorem ParseName_match (fn : Str) (hne : fn ≠ [])
    (hm : hashSuffixMatch (preOf fn) = true) :
    ParseName fn = (goJoin (splitDir fn).1
        ((preOf fn).take ((preOf fn).length - 65) ++ extOf fn),
      (preOf fn).drop ((preOf fn).length - 64)) := by
  unfold ParseName
  rw [if_neg hne]
  simp only [hm, if_true]

theorem ParseName_nomatch (fn : Str) (hne : fn ≠ [])
    (hm : hashSuffixMatch (preOf fn) = false) : ParseName fn = (fn, []) := by
  unfold ParseName
  rw [if_neg hne]
  simp only [hm, Bool.false_eq_true, if_false]

theorem parse_format_core (dir sb eb h : Str)
    (hshape : dir = [] ∨ ∃ q, dir = q ++ ['/'])
    (hsb_nodot : ∀ c ∈ sb, c ≠ '.')
    (hsb_nos : '/' ∉ sb) (heb_nos : '/' ∉ eb)
    (heb : eb = [] ∨ ∃ t, eb = '.' :: t)
    (hlen : h.length = 64) (hhex : h.all isHexChar = true) :
    ParseName (dir ++ ((sb ++ '-' :: h) ++ eb)) = (goJoin dir (sb ++ eb), h) := by
  have hhp := hex_all_not_mem h hhex
  have hb_nos : '/' ∉ (sb ++ '-' :: h) ++ eb := by
    intro hmem
    rcases List.mem_append.mp hmem with hm | hm
    · rcases List.mem_append.mp hm with hm' | hm'
      · exact hsb_nos hm'
      · rcases List.mem_cons.mp hm' with hm'' | hm''
        · exact absurd hm'' (by decide)
        · exact hhp.1 hm''
    · exact heb_nos hm
  have hfnne : dir ++ ((sb ++ '-' :: h) ++ eb) ≠ [] := by simp
  have hsd : splitDir (dir ++ ((sb ++ '-' :: h) ++ eb)) = (dir, (sb ++ '-' :: h) ++ eb) :=
    splitDir_append _ _ hshape hb_nos
  have hall : ∀ x ∈ sb ++ '-' :: h, (fun c => decide (c ≠ '.')) x = true := by
    intro x hx
    rcases List.mem_append.mp hx with hm | hm
    · simp [hsb_nodot x hm]
    · rcases List.mem_cons.mp hm with hm' | hm'
      · subst hm'; decide
      · simp [(isHexChar_ne x (List.all_eq_true.mp hhex x hm')).2.1]
  have hpe : preOf (dir ++ ((sb ++ '-' :: h) ++ eb)) = sb ++ '-' :: h ∧
      extOf (dir ++ ((sb ++ '-' :: h) ++ eb)) = eb := by
    rcases heb with rfl | ⟨t, rfl⟩
    · have hnd : '.' ∉ (sb ++ '-' :: h) ++ ([] : Str) := by
        rw [List.append_nil]
        intro hmem
        have h2 := hall '.' hmem
        simp at h2
      constructor
      · unfold preOf
        rw [hsd]
        show (if '.' ∈ (sb ++ '-' :: h) ++ ([] : Str) then _ else (sb ++ '-' :: h) ++ ([] : Str)) = _
        rw [if_neg hnd, List.append_nil]
      · unfold extOf
        rw [hsd]
        show (if '.' ∈ (sb ++ '-' :: h) ++ ([] : Str) then _ else []) = _
        rw [if_neg hnd]
    · have hd : '.' ∈ (sb ++ '-' :: h) ++ '.' :: t :=
        List.mem_append_right _ (List.mem_cons_self _ _)
      constructor
      · unfold preOf
        rw [hsd]
        show (if '.' ∈ (sb ++ '-' :: h) ++ '.' :: t
          then ((sb ++ '-' :: h) ++ '.' :: t).takeWhile (fun c => decide (c ≠ '.'))
          else (sb ++ '-' :: h) ++ '.' :: t) = _
        rw [if_pos hd]
        exact takeWhile_middle _ _ _ _ hall (by simp)
      · unfold extOf
        rw [hsd]
        show (if '.' ∈ (sb ++ '-' :: h) ++ '.' :: t
          then ((sb ++ '-' :: h) ++ '.' :: t).dropWhile (fun c => decide (c ≠ '.'))
          else []) = _
        rw [if_pos hd]
        exact dropWhile_middle _ _ _ _ hall (by simp)
  have hm : hashSuffixMatch (preOf (dir ++ ((sb ++ '-' :: h) ++ eb))) = true := by
    rw [hpe.1]
    exact hashSuffixMatch_tail sb h hlen hhex
  rw [ParseName_match _ hfnne hm, hpe.1, hpe.2, hsd]
  have hlpre : (sb ++ '-' :: h).length = sb.length + 65 := by
    simp only [List.length_append, List.length_cons]
    omega
  have htake : (sb ++ '-' :: h).take ((sb ++ '-' :: h).length - 65) = sb := by
    rw [hlpre]
    have he : sb.length + 65 - 65 = sb.length := by omega
    rw [he]
    exact List.take_left sb _
  have hdrop : (sb ++ '-' :: h).drop ((sb ++ '-' :: h).length - 64) = h := by
    rw [hlpre]
    have he2 : sb ++ '-' :: h = (sb ++ ['-']) ++ h := by simp
    have he3 : sb.length + 65 - 64 = (sb ++ ['-']).length := by simp
    rw [he3, he2, List.drop_left]
  rw [htake, hdrop]

theorem fmtBase_dash (base h : Str) : '-' ∈ fmtBase base h := by
  unfold fmtBase
  split
  · exact List.mem_append_left _ (List.mem_append_right _ (List.mem_cons_self _ _))
  · exact List.mem_append_right _ (List.mem_cons_self _ _)

theorem fmtBase_no_slash (base h : Str) (hb : '/' ∉ base) (hh : '/' ∉ h) :
    '/' ∉ fmtBase base h := by
  unfold fmtBase
  split <;> intro hmem
  · rcases List.mem_append.mp hmem with hm | hm
    · rcases List.mem_append.mp hm with hm' | hm'
      · exact hb ((List.takeWhile_sublist _).mem hm')
      · rcases List.mem_cons.mp hm' with hm'' | hm''
        · exact absurd hm'' (by decide)
        · exact hh hm''
    · exact hb ((List.dropWhile_sublist _).mem hm)
  · rcases List.mem_append.mp hmem with hm | hm
    · exact hb hm
    · rcases List.mem_cons.mp hm with hm' | hm'
      · exact absurd hm' (by decide)
      · exact hh hm'

/-- Helper: a string containing `-` is neither empty, `"."`, nor `".."`. -/
theorem dash_mem_shape (s : Str) (hd : '-' ∈ s) :
    s ≠ [] ∧ s ≠ ['.'] ∧ s ≠ dotdot := by
  refine ⟨?_, ?_, ?_⟩ <;> intro hE <;> rw [hE] at hd <;> revert hd <;> decide

/-- The format direction on clean paths: `FormatName` is plain concatenation
of the directory and the hash-extended base name (no re-cleaning happens). -/
theorem FormatName_clean (p h : Str) (hne : p ≠ []) (hp : clean p = p) (hh0 : h ≠ [])
    (hhs : '/' ∉ h) : FormatName p h = (splitDir p).1 ++ fmtBase (splitDir p).2 h := by
  obtain ⟨heq, hbnos, hshape⟩ := splitDir_spec p
  have hdash := fmtBase_dash (splitDir p).2 h
  obtain ⟨hfb_ne, hfb_ndot, hfb_ndd⟩ := dash_mem_shape _ hdash
  have hfb_nos := fmtBase_no_slash (splitDir p).2 h hbnos hhs
  unfold FormatName
  rw [if_neg hne, if_neg hh0]
  show goJoin (splitDir p).1 (fmtBase (splitDir p).2 h) = _
  exact goJoin_normal hp hne _ hfb_nos hfb_ne hfb_ndot hfb_ndd

/-- C1 (amended): the naming codec round-trips on cleaned paths: for every
non-empty path `p` fixed by `path.Clean` and every 64-character
lowercase-hex digest `h`, `ParseName (FormatName p h) = (p, h)`. -/
theorem C1_parse_format_roundtrip (p h : Str) (hne : p ≠ []) (hp : clean p = p)
    (hlen : h.length = 64) (hhex : h.all isHexChar = true) :
    ParseName (FormatName p h) = (p, h) := by
  have hh0 : h ≠ [] := by
    intro h0
    rw [h0] at hlen
    simp at hlen
  have hhp := hex_all_not_mem h hhex
  obtain ⟨heq, hbnos, hshape⟩ := splitDir_spec p
  rw [FormatName_clean p h hne hp hh0 hhp.1]
  by_cases hdot : '.' ∈ (splitDir p).2
  · have hfb : fmtBase (splitDir p).2 h =
        ((splitDir p).2.takeWhile (fun c => decide (c ≠ '.')) ++ '-' :: h) ++
          (splitDir p).2.dropWhile (fun c => decide (c ≠ '.')) := by
      unfold fmtBase
      rw [if_pos hdot]
    have hstem_nodot : ∀ c ∈ (splitDir p).2.takeWhile (fun c => decide (c ≠ '.')),
        c ≠ '.' := by
      intro c hc
      have := List.mem_takeWhile_imp hc
      simpa using this
    have hstem_nos : '/' ∉ (splitDir p).2.takeWhile (fun c => decide (c ≠ '.')) :=
      fun hm => hbnos ((List.takeWhile_sublist _).mem hm)
    have hext_nos : '/' ∉ (splitDir p).2.dropWhile (fun c => decide (c ≠ '.')) :=
      fun hm => hbnos ((List.dropWhile_sublist _).mem hm)
    have hext_shape : (splitDir p).2.dropWhile (fun c => decide (c ≠ '.')) = [] ∨
        ∃ t, (splitDir p).2.dropWhile (fun c => decide (c ≠ '.')) = '.' :: t := by
      cases hc : (splitDir p).2.dropWhile (fun c => decide (c ≠ '.')) with
      | nil => exact Or.inl rfl
      | cons e' t =>
        right
        have hf := dropWhile_head_false _ _ e' t hc
        have he' : e' = '.' := by simpa using hf
        exact ⟨t, by rw [he']⟩
    rw [hfb, parse_format_core _ _ _ h hshape hstem_nodot hstem_nos hext_nos
      hext_shape hlen hhex, List.takeWhile_append_dropWhile,
      goJoin_splitDir hp hne]
  · have hfb : fmtBase (splitDir p).2 h = (((splitDir p).2 ++ '-' :: h) ++ []) := by
      unfold fmtBase
      rw [if_neg hdot]
      exact (List.append_nil _).symm
    have hbase_nodot : ∀ c ∈ (splitDir p).2, c ≠ '.' :=
      fun c hc he => hdot (he ▸ hc)
    rw [hfb, parse_format_core _ _ _ h hshape hbase_nodot hbnos (by simp)
      (Or.inl rfl) hlen hhex, List.append_nil, goJoin_splitDir hp hne]

/-! ## Claim theorems: the naming codec -/

/-- C1 (amended): round-trip of the naming codec on normalized paths — for
every non-empty path `p` fixed by `path.Clean` and every 64-lowercase-hex
digest `h`, `ParseName (FormatName p h)` returns exactly `(p, h)`. -/
theorem C1_roundtrip (p h : Str) (hne : p ≠ []) (hp : clean p = p)
    (hlen : h.length = 64) (hhex : h.all isHexChar = true) :
    ParseName (FormatName p h) = (p, h) :=
  C1_parse_format_roundtrip p h hne hp hlen hhex

/-- C1 witness: the round-trip theorem applied at `p = "a/b.txt"`,
`h = "aa…a"`. -/
theorem C1_roundtrip_witness :
    ("a/b.txt".data ≠ [] ∧ clean "a/b.txt".data = "a/b.txt".data ∧
      hex64a.length = 64 ∧ hex64a.all isHexChar = true) ∧
    ParseName (FormatName "a/b.txt".data hex64a) = ("a/b.txt".data, hex64a) :=
  ⟨by decide, C1_roundtrip "a/b.txt".data hex64a (by decide) (by decide)
    (by decide) (by decide)⟩

/-- C1 counterexample: the round-trip fails for the non-normalized (but
non-empty) path `"a/"`: `FormatName` appends `-h` to the empty base name and
`path.Join` re-cleans the result, so parsing returns base `"a"`, not `"a/"`. -/
theorem C1_roundtrip_counterexample :
    ("a/".data ≠ [] ∧ hex64a.length = 64 ∧ hex64a.all isHexChar = true) ∧
      ParseName (FormatName "a/".data hex64a) ≠ ("a/".data, hex64a) := by decide

/-- C10: `ParseName` never takes the out-of-bounds branch: whenever the
digest regex matches the pre-extension stem, the stem has length at least 65,
so the slices `pre[:len(pre)-65]` and `pre[len(pre)-64:]` are in bounds. -/
theorem C10_no_panic (fn : Str) (hm : hashSuffixMatch (preOf fn) = true) :
    65 ≤ (preOf fn).length :=
  hashSuffixMatch_len _ hm

/-- C10 witness: the bound evaluated on the stem of `x-<64 a's>`. -/
theorem C10_no_panic_witness :
    hashSuffixMatch (preOf ('x' :: '-' :: hex64a)) = true ∧
      65 ≤ (preOf ('x' :: '-' :: hex64a)).length :=
  ⟨by decide, C10_no_panic ('x' :: '-' :: hex64a) (by decide)⟩

/-- C2 (amended): digest recognition in `ParseName` — the digest is non-empty
iff the pre-extension stem contains (anywhere, since the regex is unanchored)
a dash followed by at least 64 lowercase-hex characters; in that case the
returned digest is exactly the last 64 characters of the stem (whatever they
are) and the base is `path.Join` of the directory with the stem minus its
last 65 characters plus the extension; if the regex does not match, the
original filename is returned unchanged with an empty digest. -/
theorem C2_digest_recognition (fn : Str) :
    ((ParseName fn).2 ≠ [] ↔
      ∃ a h t, preOf fn = a ++ '-' :: (h ++ t) ∧ h.length = 64 ∧
        h.all isHexChar = true) ∧
    ((ParseName fn).2 ≠ [] → (ParseName fn).2.length = 64 ∧
      ParseName fn = (goJoin (splitDir fn).1
          ((preOf fn).take ((preOf fn).length - 65) ++ extOf fn),
        (preOf fn).drop ((preOf fn).length - 64))) ∧
    (hashSuffixMatch (preOf fn) = false → ParseName fn = (fn, [])) := by
  by_cases hne : fn = []
  · subst hne
    refine ⟨?_, ?_, ?_⟩
    · constructor
      · intro h2
        exact absurd rfl h2
      · rintro ⟨a, h, t, habs, -, -⟩
        have : preOf ([] : Str) = [] := rfl
        rw [this] at habs
        exact absurd habs.symm (by simp)
    · intro h2
      exact absurd rfl h2
    · intro _
      rfl
  · cases hmatch : hashSuffixMatch (preOf fn) with
    | true =>
      have hlen := hashSuffixMatch_len _ hmatch
      have hpn := ParseName_match fn hne hmatch
      have hdlen : (ParseName fn).2.length = 64 := by
        rw [hpn]
        simp only [List.length_drop]
        omega
      have hdne : (ParseName fn).2 ≠ [] := by
        intro h0
        rw [h0] at hdlen
        simp at hdlen
      refine ⟨?_, ?_, ?_⟩
      · exact ⟨fun _ => (hashSuffixMatch_iff _).mp hmatch, fun _ => hdne⟩
      · exact fun _ => ⟨hdlen, hpn⟩
      · intro hm
        exact absurd hm (by simp)
    | false =>
      have hpn := ParseName_nomatch fn hne hmatch
      have hd : (ParseName fn).2 = [] := by rw [hpn]
      refine ⟨?_, ?_, ?_⟩
      · constructor
        · intro h2
          exact absurd hd h2
        · intro hex
          rw [← hashSuffixMatch_iff] at hex
          rw [hmatch] at hex
          exact absurd hex (by simp)
      · intro h2
        exact absurd hd h2
      · intro _
        exact hpn

/-- C2 witness: the no-match branch evaluated on `baz-<63 hex chars>.tar.gz`
(the repository's own short-hash test vector shape), via the theorem. -/
theorem C2_digest_recognition_witness :
    ParseName ('b' :: 'z' :: '-' :: List.replicate 63 '0' ++ ".gz".data) =
      ('b' :: 'z' :: '-' :: List.replicate 63 '0' ++ ".gz".data, []) :=
  (C2_digest_recognition _).2.2 (by decide)

/-- C2 counterexample: on the filename `a-<64 zeros>z` the stem does not end
in a dash followed by 64 hex characters, yet `ParseName` (whose regex is
unanchored) returns a non-empty digest — the last 64 stem characters
`0…0z`, which are not even all hex — instead of the filename unchanged. -/
theorem C2_digest_recognition_counterexample :
    endsWithDashHex64 (preOf cexC2) = false ∧ (ParseName cexC2).2 ≠ [] ∧
      ParseName cexC2 ≠ (cexC2, []) ∧ (ParseName cexC2).2.all isHexChar = false := by
  decide

/-! ## FormatName injectivity and HashName computation -/

theorem clean_fix_ne_nil {n : Str} (h : clean n = n) : n ≠ [] := by
  intro h0
  rw [h0] at h
  exact absurd h (by decide)

theorem FormatName_ne_nil_clean (p h : Str) (hp : clean p = p)
    (hl : h.length = 64) (hx : h.all isHexChar = true) : FormatName p h ≠ [] := by
  have hne := clean_fix_ne_nil hp
  have hh0 : h ≠ [] := by
    intro h0
    rw [h0] at hl
    simp at hl
  rw [FormatName_clean p h hne hp hh0 (hex_all_not_mem h hx).1]
  intro habs
  have hdash := fmtBase_dash (splitDir p).2 h
  rw [List.append_eq_nil] at habs
  rw [habs.2] at hdash
  simp at hdash

theorem FormatName_inj_clean (p₁ h₁ p₂ h₂ : Str)
    (hp₁ : clean p₁ = p₁) (hl₁ : h₁.length = 64) (hx₁ : h₁.all isHexChar = true)
    (hp₂ : clean p₂ = p₂) (hl₂ : h₂.length = 64) (hx₂ : h₂.all isHexChar = true)
    (heq : FormatName p₁ h₁ = FormatName p₂ h₂) : p₁ = p₂ ∧ h₁ = h₂ := by
  have e1 := C1_parse_format_roundtrip p₁ h₁ (clean_fix_ne_nil hp₁) hp₁ hl₁ hx₁
  have e2 := C1_parse_format_roundtrip p₂ h₂ (clean_fix_ne_nil hp₂) hp₂ hl₂ hx₂
  rw [heq, e2] at e1
  injection e1 with ha hb
  exact ⟨ha.symm, hb.symm⟩

theorem HashName_hit (store : Store) (sha : List Nat → Str) (st : FSState)
    (name s : Str) (hs : lookA st.m name = some s) (hne : s ≠ []) :
    HashName store sha st name = ⟨s, st, []⟩ := by
  unfold HashName
  rw [hs]
  simp only [Option.getD_some]
  rw [if_pos hne]

theorem HashName_miss_err (store : Store) (sha : List Nat → Str) (st : FSState)
    (name : Str) (e : GoErr) (hs : (lookA st.m name).getD [] = [])
    (he : store.readF name = .error e) :
    HashName store sha st name = ⟨name, st, [name]⟩ := by
  unfold HashName
  rw [hs, if_neg (by simp), he]

theorem HashName_miss_ok (store : Store) (sha : List Nat → Str) (st : FSState)
    (name : Str) (buf : List Nat) (hs : (lookA st.m name).getD [] = [])
    (hb : store.readF name = .ok buf) :
    HashName store sha st name = ⟨FormatName name (sha buf),
      ⟨(name, FormatName name (sha buf)) :: st.m,
       (FormatName name (sha buf), (name, sha buf)) :: st.r⟩, [name]⟩ := by
  unfold HashName
  rw [hs, if_neg (by simp), hb]

/-- Under the reachability fact, a cached entry implies a successful read
exists, so a failing read implies a cache miss. -/
theorem lookup_miss_of_read_error (store : Store) (st : FSState) (name : Str)
    (e : GoErr) (hinv : ReadableInv store st)
    (he : store.readF name = .error e) : (lookA st.m name).getD [] = [] := by
  cases hl : lookA st.m name with
  | none => rfl
  | some s =>
    obtain ⟨buf, hbuf⟩ := hinv name s hl
    rw [he] at hbuf
    exact absurd hbuf (by simp)

theorem readableInv_NewFS (store : Store) : ReadableInv store NewFS := by
  intro p hn h
  exact absurd h (by simp [lookA, NewFS])

theorem cacheInv_NewFS (store : Store) (sha : List Nat → Str) :
    CacheInv store sha NewFS := by
  constructor
  · intro p hn h
    exact absurd h (by simp [lookA, NewFS])
  · intro hn p d h
    exact absurd h (by simp [lookA, NewFS])

/-- C7 (amended): `HashName` is idempotent — two consecutive calls on the
same path (with the same underlying store) return the same string, and the
second call performs no underlying read whenever the first call left a
non-empty forward-cache entry for the path (as every successful first read of
a non-empty path does). -/
theorem C7_hashname_idempotent (store : Store) (sha : List Nat → Str)
    (st : FSState) (n : Str) :
    (HashName store sha (HashName store sha st n).st n).res =
        (HashName store sha st n).res ∧
    ((lookA (HashName store sha st n).st.m n).getD [] ≠ [] →
      (HashName store sha (HashName store sha st n).st n).reads = []) := by
  cases hl : lookA st.m n with
  | some s =>
    by_cases hsne : s = []
    · subst hsne
      have hmiss : (lookA st.m n).getD [] = [] := by rw [hl]; rfl
      cases hrf : store.readF n with
      | error e =>
        have h1 := HashName_miss_err store sha st n e hmiss hrf
        rw [h1]
        exact ⟨by rw [h1], fun habs => absurd hmiss habs⟩
      | ok buf =>
        have h1 := HashName_miss_ok store sha st n buf hmiss hrf
        rw [h1]
        dsimp only
        have hl2 : lookA ((n, FormatName n (sha buf)) :: st.m) n =
            some (FormatName n (sha buf)) := by simp [lookA]
        by_cases hH : FormatName n (sha buf) = []
        · have hmiss2 : (lookA ((n, FormatName n (sha buf)) :: st.m) n).getD [] = [] := by
            rw [hl2, Option.getD_some, hH]
          have h2 := HashName_miss_ok store sha
            ⟨(n, FormatName n (sha buf)) :: st.m,
             (FormatName n (sha buf), (n, sha buf)) :: st.r⟩ n buf hmiss2 hrf
          rw [h2]
          exact ⟨rfl, fun habs => absurd hmiss2 habs⟩
        · have h2 := HashName_hit store sha
            ⟨(n, FormatName n (sha buf)) :: st.m,
             (FormatName n (sha buf), (n, sha buf)) :: st.r⟩ n
            (FormatName n (sha buf)) hl2 hH
          rw [h2]
          exact ⟨rfl, fun _ => rfl⟩
    · have h1 := HashName_hit store sha st n s hl hsne
      rw [h1]
      dsimp only
      rw [h1]
      exact ⟨rfl, fun _ => rfl⟩
  | none =>
    have hmiss : (lookA st.m n).getD [] = [] := by rw [hl]; rfl
    cases hrf : store.readF n with
    | error e =>
      have h1 := HashName_miss_err store sha st n e hmiss hrf
      rw [h1]
      exact ⟨by rw [h1], fun habs => absurd hmiss habs⟩
    | ok buf =>
      have h1 := HashName_miss_ok store sha st n buf hmiss hrf
      rw [h1]
      dsimp only
      have hl2 : lookA ((n, FormatName n (sha buf)) :: st.m) n =
          some (FormatName n (sha buf)) := by simp [lookA]
      by_cases hH : FormatName n (sha buf) = []
      · have hmiss2 : (lookA ((n, FormatName n (sha buf)) :: st.m) n).getD [] = [] := by
          rw [hl2, Option.getD_some, hH]
        have h2 := HashName_miss_ok store sha
          ⟨(n, FormatName n (sha buf)) :: st.m,
           (FormatName n (sha buf), (n, sha buf)) :: st.r⟩ n buf hmiss2 hrf
        rw [h2]
        exact ⟨rfl, fun habs => absurd hmiss2 habs⟩
      · have h2 := HashName_hit store sha
          ⟨(n, FormatName n (sha buf)) :: st.m,
           (FormatName n (sha buf), (n, sha buf)) :: st.r⟩ n
          (FormatName n (sha buf)) hl2 hH
        rw [h2]
        exact ⟨rfl, fun _ => rfl⟩

/-- C7 witness: both conjuncts evaluated after a successful first call on
`a/b.txt`: the second call returns the same name and performs no read. -/
theorem C7_hashname_idempotent_witness :
    (lookA (HashName witStore shaZ NewFS "a/b.txt".data).st.m "a/b.txt".data).getD []
        ≠ [] ∧
    (HashName witStore shaZ (HashName witStore shaZ NewFS "a/b.txt".data).st
        "a/b.txt".data).res =
      (HashName witStore shaZ NewFS "a/b.txt".data).res ∧
    (HashName witStore shaZ (HashName witStore shaZ NewFS "a/b.txt".data).st
        "a/b.txt".data).reads = [] :=
  ⟨by decide, (C7_hashname_idempotent witStore shaZ NewFS "a/b.txt".data).1,
    (C7_hashname_idempotent witStore shaZ NewFS "a/b.txt".data).2 (by decide)⟩

/-- C7 counterexample: with a store whose read of the empty name succeeds,
the first `HashName` call does cache an entry (key `""`, value `""`), yet the
second consecutive call still performs an underlying read, contradicting the
unrestricted no-read claim. -/
theorem C7_hashname_idempotent_counterexample :
    lookA (HashName cexStoreC7 shaZ NewFS []).st.m [] = some [] ∧
    (HashName cexStoreC7 shaZ (HashName cexStoreC7 shaZ NewFS []).st []).reads =
      [[]] := by decide

/-! ## The cache invariant (C5) -/

theorem lookA_cons_eq {α : Type} (k : Str) (v : α) (l : List (Str × α)) :
    lookA ((k, v) :: l) k = some v := by simp [lookA]

theorem lookA_cons_ne {α : Type} (k k' : Str) (v : α) (l : List (Str × α))
    (h : k ≠ k') : lookA ((k, v) :: l) k' = lookA l k' := by simp [lookA, h]

theorem readableInv_HashName (store : Store) (sha : List Nat → Str)
    (st : FSState) (n : Str) (hinv : ReadableInv store st) :
    ReadableInv store (HashName store sha st n).st := by
  by_cases hhit : (lookA st.m n).getD [] = []
  · cases hrf : store.readF n with
    | error e =>
      rw [HashName_miss_err store sha st n e hhit hrf]
      exact hinv
    | ok buf =>
      rw [HashName_miss_ok store sha st n buf hhit hrf]
      intro p hn hlp
      by_cases hpn : n = p
      · subst hpn
        exact ⟨buf, hrf⟩
      · rw [lookA_cons_ne _ _ _ _ hpn] at hlp
        exact hinv p hn hlp
  · obtain ⟨s, hl, hsne⟩ : ∃ s, lookA st.m n = some s ∧ s ≠ [] := by
      cases hl : lookA st.m n with
      | none =>
        rw [hl] at hhit
        exact absurd rfl hhit
      | some s =>
        rw [hl] at hhit
        exact ⟨s, rfl, fun h0 => hhit (by rw [h0]; rfl)⟩
    rw [HashName_hit store sha st n s hl hsne]
    exact hinv

/-- C6: error atomicity of `HashName` — on any reachable cache state (every
forward entry stems from a successful read, as holds from `NewFS` on), if
the underlying read of a path fails, `HashName` returns the path unchanged,
surfaces no error, performs exactly that one read, and leaves both maps
exactly as they were. -/
theorem C6_hashname_error_atomic (store : Store) (sha : List Nat → Str)
    (st : FSState) (name : Str) (e : GoErr)
    (hinv : ReadableInv store st) (he : store.readF name = .error e) :
    HashName store sha st name = ⟨name, st, [name]⟩ :=
  HashName_miss_err store sha st name e
    (lookup_miss_of_read_error store st name e hinv he) he

/-- C6 witness: a failing read on the empty cache leaves the state unchanged. -/
theorem C6_hashname_error_atomic_witness :
    HashName witStore shaZ NewFS "zzz".data = ⟨"zzz".data, NewFS, ["zzz".data]⟩ :=
  C6_hashname_error_atomic witStore shaZ NewFS "zzz".data .notExist
    (readableInv_NewFS witStore) rfl

theorem cacheInv_HashName (store : Store) (sha : List Nat → Str)
    (hcs : CleanStore store) (hsha : HexDigest sha) (st : FSState) (n : Str)
    (hinv : CacheInv store sha st) :
    CacheInv store sha (HashName store sha st n).st := by
  cases hl : lookA st.m n with
  | some s =>
    by_cases hsne : s = []
    · subst hsne
      have hmiss : (lookA st.m n).getD [] = [] := by rw [hl]; rfl
      cases hrf : store.readF n with
      | error e => rw [HashName_miss_err store sha st n e hmiss hrf]; exact hinv
      | ok buf =>
        exact absurd (hinv.1 n [] hl) (by
          rintro ⟨buf', hb', hfmt', -⟩
          have hncl : clean n = n := hcs n buf' hb'
          exact FormatName_ne_nil_clean n (sha buf') hncl (hsha buf').1
            (hsha buf').2 hfmt'.symm)
    · rw [HashName_hit store sha st n s hl hsne]; exact hinv
  | none =>
    have hmiss : (lookA st.m n).getD [] = [] := by rw [hl]; rfl
    cases hrf : store.readF n with
    | error e => rw [HashName_miss_err store sha st n e hmiss hrf]; exact hinv
    | ok buf =>
      rw [HashName_miss_ok store sha st n buf hmiss hrf]
      have hncl : clean n = n := hcs n buf hrf
      have hHne : FormatName n (sha buf) ≠ [] :=
        FormatName_ne_nil_clean n (sha buf) hncl (hsha buf).1 (hsha buf).2
      constructor
      · intro p hn hlp
        by_cases hpn : n = p
        · subst hpn
          rw [lookA_cons_eq] at hlp
          injection hlp with hlp'
          subst hlp'
          exact ⟨buf, hrf, rfl, lookA_cons_eq _ _ _⟩
        · rw [lookA_cons_ne _ _ _ _ hpn] at hlp
          obtain ⟨buf', hb', hfmt', hr'⟩ := hinv.1 p hn hlp
          by_cases hhn : FormatName n (sha buf) = hn
          · have hpcl : clean p = p := hcs p buf' hb'
            have hinj := FormatName_inj_clean n (sha buf) p (sha buf') hncl
              (hsha buf).1 (hsha buf).2 hpcl (hsha buf').1 (hsha buf').2
              (hhn.trans hfmt')
            exact absurd hinj.1 hpn
          · exact ⟨buf', hb', hfmt', by rw [lookA_cons_ne _ _ _ _ hhn]; exact hr'⟩
      · intro hn p d hlr
        by_cases hhn : FormatName n (sha buf) = hn
        · subst hhn
          rw [lookA_cons_eq] at hlr
          injection hlr with hlr'
          injection hlr' with hp hd
          subst hp
          subst hd
          exact ⟨buf, hrf, rfl, rfl, lookA_cons_eq _ _ _⟩
        · rw [lookA_cons_ne _ _ _ _ hhn] at hlr
          obtain ⟨buf', hb', hd', hfmt', hm'⟩ := hinv.2 hn p d hlr
          by_cases hpn : n = p
          · subst hpn
            rw [hl] at hm'
            exact absurd hm' (by simp)
          · exact ⟨buf', hb', hd', hfmt', by rw [lookA_cons_ne _ _ _ _ hpn]; exact hm'⟩

theorem hashName_m_mono (store : Store) (sha : List Nat → Str)
    (hcs : CleanStore store) (hsha : HexDigest sha) (st : FSState) (n : Str)
    (hinv : CacheInv store sha st) (p hn : Str) (hlp : lookA st.m p = some hn) :
    lookA (HashName store sha st n).st.m p = some hn := by
  cases hl : lookA st.m n with
  | some s =>
    by_cases hsne : s = []
    · subst hsne
      exact absurd (hinv.1 n [] hl) (by
        rintro ⟨buf', hb', hfmt', -⟩
        exact FormatName_ne_nil_clean n (sha buf') (hcs n buf' hb') (hsha buf').1
          (hsha buf').2 hfmt'.symm)
    · rw [HashName_hit store sha st n s hl hsne]; exact hlp
  | none =>
    have hmiss : (lookA st.m n).getD [] = [] := by rw [hl]; rfl
    cases hrf : store.readF n with
    | error e => rw [HashName_miss_err store sha st n e hmiss hrf]; exact hlp
    | ok buf =>
      rw [HashName_miss_ok store sha st n buf hmiss hrf]
      by_cases hpn : n = p
      · subst hpn
        rw [hl] at hlp
        exact absurd hlp (by simp)
      · show lookA ((n, FormatName n (sha buf)) :: st.m) p = some hn
        rw [lookA_cons_ne _ _ _ _ hpn]
        exact hlp

theorem hashName_r_mono (store : Store) (sha : List Nat → Str)
    (hcs : CleanStore store) (hsha : HexDigest sha) (st : FSState) (n : Str)
    (hinv : CacheInv store sha st) (hn : Str) (pd : Str × Str)
    (hlr : lookA st.r hn = some pd) :
    lookA (HashName store sha st n).st.r hn = some pd := by
  cases hl : lookA st.m n with
  | some s =>
    by_cases hsne : s = []
    · subst hsne
      exact absurd (hinv.1 n [] hl) (by
        rintro ⟨buf', hb', hfmt', -⟩
        exact FormatName_ne_nil_clean n (sha buf') (hcs n buf' hb') (hsha buf').1
          (hsha buf').2 hfmt'.symm)
    · rw [HashName_hit store sha st n s hl hsne]; exact hlr
  | none =>
    have hmiss : (lookA st.m n).getD [] = [] := by rw [hl]; rfl
    cases hrf : store.readF n with
    | error e => rw [HashName_miss_err store sha st n e hmiss hrf]; exact hlr
    | ok buf =>
      rw [HashName_miss_ok store sha st n buf hmiss hrf]
      have hncl : clean n = n := hcs n buf hrf
      show lookA ((FormatName n (sha buf), (n, sha buf)) :: st.r) hn = some pd
      by_cases hhn : FormatName n (sha buf) = hn
      · obtain ⟨buf', hb', hd', hfmt', hm'⟩ := hinv.2 hn pd.1 pd.2 (by
          rw [hlr])
        have hpcl : clean pd.1 = pd.1 := hcs pd.1 buf' hb'
        have hinj := FormatName_inj_clean n (sha buf) pd.1 pd.2 hncl
          (hsha buf).1 (hsha buf).2 hpcl (by rw [hd']; exact (hsha buf').1)
          (by rw [hd']; exact (hsha buf').2) (hhn.trans hfmt')
        rw [← hinj.1] at hm'
        rw [hl] at hm'
        exact absurd hm' (by simp)
      · rw [lookA_cons_ne _ _ _ _ hhn]
        exact hlr

theorem openFS_eq (store : Store) (sha : List Nat → Str) (st : FSState) (name : Str) :
    openFS store sha st name =
      if (FSParseName st name).2 ≠ [] then
        ⟨store.openF (if (HashName store sha st (FSParseName st name).1).res = name
            then (FSParseName st name).1 else name),
          (FSParseName st name).2,
          (HashName store sha st (FSParseName st name).1).st,
          (HashName store sha st (FSParseName st name).1).reads⟩
      else ⟨store.openF name, (FSParseName st name).2, st, []⟩ := rfl

theorem openFS_st (store : Store) (sha : List Nat → Str) (st : FSState) (name : Str)
    (hcs : CleanStore store) (hsha : HexDigest sha) (hinv : CacheInv store sha st) :
    CacheInv store sha (openFS store sha st name).st := by
  rw [openFS_eq]
  by_cases hh : (FSParseName st name).2 ≠ []
  · rw [if_pos hh]
    exact cacheInv_HashName store sha hcs hsha st _ hinv
  · rw [if_neg hh]
    exact hinv

theorem readableInv_openFS (store : Store) (sha : List Nat → Str)
    (st : FSState) (name : Str) (hinv : ReadableInv store st) :
    ReadableInv store (openFS store sha st name).st := by
  rw [openFS_eq]
  by_cases hh : (FSParseName st name).2 ≠ []
  · rw [if_pos hh]
    exact readableInv_HashName store sha st _ hinv
  · rw [if_neg hh]
    exact hinv

theorem serveHTTP_st (store : Store) (sha : List Nat → Str) (st : FSState)
    (req : Request) :
    (serveHTTP store sha st req).2 =
      (openFS store sha st (serveFilename req.urlPath)).st := by
  unfold serveHTTP
  dsimp only
  cases hof : (openFS store sha st (serveFilename req.urlPath)).file with
  | error e => rfl
  | ok f =>
    dsimp only
    cases hfi : f.info with
    | error e => rfl
    | ok fi =>
      dsimp only
      by_cases hdir : fi.isDir = true
      · rw [if_pos hdir]
      · rw [if_neg hdir]
        by_cases hsk : f.seeker = true
        · rw [if_pos hsk]
        · rw [if_neg hsk]

theorem cleanStore_wit : CleanStore witStore := by
  intro p buf h
  by_cases hp : p = "a/b.txt".data
  · subst hp
    decide
  · exact absurd h (by simp [witStore, hp])

theorem hexDigest_shaZ : HexDigest shaZ := by
  intro buf
  show hex64z.length = 64 ∧ hex64z.all isHexChar = true
  decide

/-- C5 (amended): cache consistency under the `fs.FS` valid-path contract
(the store resolves only `path.Clean`-fixed names) and a well-formed digest
primitive (64 lowercase-hex characters, as hex-encoded SHA-256 is): the
invariant — every forward entry `P ↦ H` stems from a successful read of `P`
whose digest `d` gives `H = FormatName P d`, with the reverse map holding
`H ↦ (P, d)`, and conversely — holds of the empty initial state and is
preserved by every operation; moreover entries are never evicted or
recomputed (all existing lookups survive every operation). -/
theorem C5_cache_consistency (store : Store) (sha : List Nat → Str)
    (hcs : CleanStore store) (hsha : HexDigest sha) :
    CacheInv store sha NewFS ∧
    (∀ st n, CacheInv store sha st →
      CacheInv store sha (HashName store sha st n).st) ∧
    (∀ st n, CacheInv store sha st →
      CacheInv store sha (openFS store sha st n).st) ∧
    (∀ st req, CacheInv store sha st →
      CacheInv store sha (serveHTTP store sha st req).2) ∧
    (∀ st n p hn, CacheInv store sha st → lookA st.m p = some hn →
      lookA (HashName store sha st n).st.m p = some hn) ∧
    (∀ st n hn pd, CacheInv store sha st → lookA st.r hn = some pd →
      lookA (HashName store sha st n).st.r hn = some pd) := by
  refine ⟨cacheInv_NewFS store sha,
    fun st n hinv => cacheInv_HashName store sha hcs hsha st n hinv,
    fun st n hinv => openFS_st store sha st n hcs hsha hinv,
    fun st req hinv => ?_,
    fun st n p hn hinv hlp => hashName_m_mono store sha hcs hsha st n hinv p hn hlp,
    fun st n hn pd hinv hlr => hashName_r_mono store sha hcs hsha st n hinv hn pd hlr⟩
  rw [serveHTTP_st]
  exact openFS_st store sha st _ hcs hsha hinv

/-- C5 witness: the invariant after caching `a/b.txt` on the witness store,
via the preservation theorem. -/
theorem C5_cache_consistency_witness :
    CacheInv witStore shaZ (HashName witStore shaZ NewFS "a/b.txt".data).st :=
  (C5_cache_consistency witStore shaZ cleanStore_wit hexDigest_shaZ).2.1 NewFS
    "a/b.txt".data
    (C5_cache_consistency witStore shaZ cleanStore_wit hexDigest_shaZ).1

/-- C5 counterexample: with a store that (in violation of the `fs.FS`
valid-path contract) serves both `x//y` and `x/y`, the two distinct paths
collide on the same hash name `x/y-<digest>` (because `FormatName` re-cleans
through `path.Join`), so after caching both, the forward map maps `x//y` to a
hash name whose reverse entry points back to `x/y`, not `x//y` — the claimed
invariant fails, and the earlier reverse entry was overwritten. -/
theorem C5_cache_consistency_counterexample :
    lookA (HashName cexStoreC5 shaZ
        (HashName cexStoreC5 shaZ NewFS "x//y".data).st "x/y".data).st.m
      "x//y".data = some ("x/y-".data ++ hex64z) ∧
    lookA (HashName cexStoreC5 shaZ
        (HashName cexStoreC5 shaZ NewFS "x//y".data).st "x/y".data).st.r
      ("x/y-".data ++ hex64z) = some ("x/y".data, hex64z) ∧
    ("x/y".data : Str) ≠ "x//y".data := by decide

/-- C3: resolution policy of `(*FS).open` — if the (method) `ParseName`
yields a non-empty digest and `HashName` of the parsed base equals the
requested name, the base path is the one opened on the underlying store;
otherwise the literal requested name is opened; in both cases the underlying
`Open` result (including any error) is returned unchanged, and the parsed
digest is returned as the hash. -/
theorem C3_open_resolution (store : Store) (sha : List Nat → Str) (st : FSState)
    (name : Str) :
    ((FSParseName st name).2 ≠ [] →
      (HashName store sha st (FSParseName st name).1).res = name →
      (openFS store sha st name).file = store.openF (FSParseName st name).1) ∧
    ((FSParseName st name).2 ≠ [] →
      (HashName store sha st (FSParseName st name).1).res ≠ name →
      (openFS store sha st name).file = store.openF name) ∧
    ((FSParseName st name).2 = [] →
      (openFS store sha st name).file = store.openF name) ∧
    (openFS store sha st name).hash = (FSParseName st name).2 := by
  rw [openFS_eq]
  by_cases hh : (FSParseName st name).2 ≠ []
  · rw [if_pos hh]
    refine ⟨fun _ hv => ?_, fun _ hv => ?_, fun h0 => absurd h0 hh, rfl⟩
    · show store.openF (if (HashName store sha st (FSParseName st name).1).res = name
        then (FSParseName st name).1 else name) = _
      rw [if_pos hv]
    · show store.openF (if (HashName store sha st (FSParseName st name).1).res = name
        then (FSParseName st name).1 else name) = _
      rw [if_neg hv]
  · rw [if_neg hh]
    exact ⟨fun h0 => absurd h0 hh, fun h0 => absurd h0 hh, fun _ => rfl, rfl⟩

/-- C3 witness: a verified hashed request for `a/b.txt` opens the base path. -/
theorem C3_open_resolution_witness :
    (openFS witStore shaZ NewFS ("a/b-".data ++ hex64z ++ ".txt".data)).file =
      witStore.openF "a/b.txt".data :=
  (C3_open_resolution witStore shaZ NewFS
    ("a/b-".data ++ hex64z ++ ".txt".data)).1 (by decide) (by decide)

/-! ## The HTTP handler claims -/

theorem serveHTTP_err (store : Store) (sha : List Nat → Str) (st : FSState)
    (req : Request) (e : GoErr)
    (hof : (openFS store sha st (serveFilename req.urlPath)).file = .error e) :
    (serveHTTP store sha st req).1 =
      httpError (if e = .notExist then body404 else body500)
        (if e = .notExist then 404 else 500) := by
  unfold serveHTTP
  dsimp only
  rw [hof]

theorem serveHTTP_statErr (store : Store) (sha : List Nat → Str) (st : FSState)
    (req : Request) (f : Fyle) (e : GoErr)
    (hof : (openFS store sha st (serveFilename req.urlPath)).file = .ok f)
    (hfi : f.info = .error e) :
    (serveHTTP store sha st req).1 = httpError body500 500 := by
  unfold serveHTTP
  dsimp only
  rw [hof]
  dsimp only
  rw [hfi]

theorem serveHTTP_dir (store : Store) (sha : List Nat → Str) (st : FSState)
    (req : Request) (f : Fyle) (fi : Finfo)
    (hof : (openFS store sha st (serveFilename req.urlPath)).file = .ok f)
    (hfi : f.info = .ok fi) (hdir : fi.isDir = true) :
    (serveHTTP store sha st req).1 = httpError body403 403 := by
  unfold serveHTTP
  dsimp only
  rw [hof]
  dsimp only
  rw [hfi]
  dsimp only
  rw [hdir, if_pos rfl]

theorem serveHTTP_file (store : Store) (sha : List Nat → Str) (st : FSState)
    (req : Request) (f : Fyle) (fi : Finfo)
    (hof : (openFS store sha st (serveFilename req.urlPath)).file = .ok f)
    (hfi : f.info = .ok fi) (hdir : fi.isDir = false) :
    (serveHTTP store sha st req).1 =
      if f.seeker = true then
        serveContent
          (if (openFS store sha st (serveFilename req.urlPath)).hash ≠ []
            then some ccValue else none)
          (if (openFS store sha st (serveFilename req.urlPath)).hash ≠ []
            then some ('"' :: (openFS store sha st (serveFilename req.urlPath)).hash
              ++ ['"']) else none)
          req fi.modTime f.content
      else
        ⟨200,
          (if (openFS store sha st (serveFilename req.urlPath)).hash ≠ []
            then some ccValue else none),
          (if (openFS store sha st (serveFilename req.urlPath)).hash ≠ []
            then some ('"' :: (openFS store sha st (serveFilename req.urlPath)).hash
              ++ ['"']) else none),
          some fi.size, if req.method ≠ mHEAD then f.content else []⟩ := by
  unfold serveHTTP
  dsimp only
  rw [hof]
  dsimp only
  rw [hfi]
  dsimp only
  rw [hdir]
  rw [if_neg (by simp : ¬(false = true))]
  split <;> rfl

theorem serveContent_headers (cc et : Option Str) (req : Request) (mt : Nat)
    (content : List Nat) :
    (serveContent cc et req mt content).cacheControl = cc ∧
    (serveContent cc et req mt content).etag = et := by
  unfold serveContent
  cases checkPreconditions et req mt with
  | done412 => exact ⟨rfl, rfl⟩
  | done304 => exact ⟨rfl, rfl⟩
  | proceed rq =>
    dsimp only
    cases parseRange rq content.length with
    | error e => cases e <;> exact ⟨rfl, rfl⟩
    | ok rs =>
      dsimp only
      cases hc : (if content.length < sumRangesSize rs then ([] : List HttpRange)
          else rs) with
      | nil => exact ⟨rfl, rfl⟩
      | cons ra rest =>
        cases rest with
        | nil => exact ⟨rfl, rfl⟩
        | cons rb rest' => exact ⟨rfl, rfl⟩

theorem checkPreconditions_plain (et : Option Str) (req : Request) (mt : Nat)
    (h1 : hdrGet req.headers hIfMatch = [])
    (h2 : hdrGet req.headers hIfNoneMatch = [])
    (h3 : hdrGet req.headers hIfModifiedSince = [])
    (h4 : hdrGet req.headers hIfUnmodifiedSince = [])
    (h5 : hdrGet req.headers hRange = []) :
    checkPreconditions et req mt = .proceed [] := by
  have hcim : checkIfMatch et req = .cNone := by
    unfold checkIfMatch
    rw [h1, if_pos rfl]
  have hcius : checkIfUnmodifiedSince req mt = .cNone := by
    unfold checkIfUnmodifiedSince
    rw [h4, if_pos (Or.inl rfl)]
  have hcinm : checkIfNoneMatch et req = .cNone := by
    unfold checkIfNoneMatch
    rw [h2, if_pos rfl]
  have hcims : checkIfModifiedSince req mt = .cNone := by
    unfold checkIfModifiedSince
    split
    · rfl
    · rw [h3, if_pos (Or.inl rfl)]
  have hrng : checkPreconditions.rangeOf et req mt = [] := by
    unfold checkPreconditions.rangeOf
    rw [h5, if_neg (by simp)]
  unfold checkPreconditions
  rw [hcim, hcius, hcinm, hcims, hrng]
  rfl

theorem serveContent_plain (cc et : Option Str) (req : Request) (mt : Nat)
    (content : List Nat)
    (hpre : checkPreconditions et req mt = .proceed []) :
    serveContent cc et req mt content =
      ⟨200, cc, et, some content.length,
        if req.method = mHEAD then [] else content⟩ := by
  unfold serveContent
  rw [hpre]
  dsimp only
  rw [show parseRange [] content.length = .ok [] by unfold parseRange; rw [if_pos rfl]]
  dsimp only
  rw [if_neg (by simp [sumRangesSize])]

/-- C8 (amended): HTTP status mapping — a not-exist open error yields 404
with the fixed plain-text body, any other open error or a stat error yields
500, a directory yields 403; otherwise the handler responds 200 when the
opened file is not an `io.ReadSeeker`, and likewise (even for ReadSeekers)
when the request carries no conditional or range headers; a conditional or
range request on a ReadSeeker file is delegated to `http.ServeContent`,
which may answer 304, 412, 206 or 416 instead. -/
theorem C8_status_mapping (store : Store) (sha : List Nat → Str) (st : FSState)
    (req : Request) :
    ((openFS store sha st (serveFilename req.urlPath)).file = .error .notExist →
      (serveHTTP store sha st req).1.status = 404 ∧
      (serveHTTP store sha st req).1.body = bytesOf body404) ∧
    ((openFS store sha st (serveFilename req.urlPath)).file = .error .other →
      (serveHTTP store sha st req).1.status = 500) ∧
    (∀ f e, (openFS store sha st (serveFilename req.urlPath)).file = .ok f →
      f.info = .error e → (serveHTTP store sha st req).1.status = 500) ∧
    (∀ f fi, (openFS store sha st (serveFilename req.urlPath)).file = .ok f →
      f.info = .ok fi → fi.isDir = true →
      (serveHTTP store sha st req).1.status = 403) ∧
    (∀ f fi, (openFS store sha st (serveFilename req.urlPath)).file = .ok f →
      f.info = .ok fi → fi.isDir = false → f.seeker = false →
      (serveHTTP store sha st req).1.status = 200) ∧
    (∀ f fi, (openFS store sha st (serveFilename req.urlPath)).file = .ok f →
      f.info = .ok fi → fi.isDir = false →
      hdrGet req.headers hIfMatch = [] → hdrGet req.headers hIfNoneMatch = [] →
      hdrGet req.headers hIfModifiedSince = [] →
      hdrGet req.headers hIfUnmodifiedSince = [] →
      hdrGet req.headers hRange = [] →
      (serveHTTP store sha st req).1.status = 200) := by
  refine ⟨fun hof => ?_, fun hof => ?_, fun f e hof hfi => ?_,
    fun f fi hof hfi hdir => ?_, fun f fi hof hfi hdir hsk => ?_,
    fun f fi hof hfi hdir t1 t2 t3 t4 t5 => ?_⟩
  · rw [serveHTTP_err store sha st req .notExist hof]
    exact ⟨rfl, rfl⟩
  · rw [serveHTTP_err store sha st req .other hof]
    rfl
  · rw [serveHTTP_statErr store sha st req f e hof hfi]
    rfl
  · rw [serveHTTP_dir store sha st req f fi hof hfi hdir]
    rfl
  · rw [serveHTTP_file store sha st req f fi hof hfi hdir,
      if_neg (by simp [hsk])]
  · rw [serveHTTP_file store sha st req f fi hof hfi hdir]
    by_cases hsk : f.seeker = true
    · rw [if_pos hsk, serveContent_plain _ _ req fi.modTime f.content
        (checkPreconditions_plain _ req fi.modTime t1 t2 t3 t4 t5)]
    · rw [if_neg hsk]

/-- C8 witness: a request for a missing file answered 404 with the fixed
body, via the status-mapping theorem. -/
theorem C8_status_mapping_witness :
    (serveHTTP witStore shaZ NewFS ⟨mGET, "/nope".data, []⟩).1.status = 404 ∧
    (serveHTTP witStore shaZ NewFS ⟨mGET, "/nope".data, []⟩).1.body =
      bytesOf body404 :=
  (C8_status_mapping witStore shaZ NewFS ⟨mGET, "/nope".data, []⟩).1 rfl

/-- C8 counterexample: an existing non-directory ReadSeeker file requested
with `If-None-Match: *` is answered 304, not 200, because the success path
delegates to `http.ServeContent`, which performs precondition handling. -/
theorem C8_status_mapping_counterexample :
    cexStoreC8.openF ['x'] = .ok seekFile ∧ seekFile.info = .ok ⟨false, 3, 0⟩ ∧
    seekFile.seeker = true ∧
    (serveHTTP cexStoreC8 shaZ NewFS
      ⟨mGET, "/x".data, [(hIfNoneMatch, ['*'])]⟩).1.status = 304 :=
  ⟨rfl, rfl, rfl, by decide⟩

theorem openFS_file_is_open (store : Store) (sha : List Nat → Str) (st : FSState)
    (name : Str) : ∃ nm, (openFS store sha st name).file = store.openF nm := by
  rw [openFS_eq]
  by_cases hh : (FSParseName st name).2 ≠ []
  · rw [if_pos hh]
    exact ⟨_, rfl⟩
  · rw [if_neg hh]
    exact ⟨name, rfl⟩

/-- C9 (amended): the handler itself performs no range or conditional
handling — whenever the underlying store yields only non-ReadSeeker files,
the response status is never 206 and never 304 (whatever Range,
If-None-Match or If-Modified-Since headers the request carries), and a
successful non-HEAD request is served the full body; conditional and range
handling exists only on the `http.ServeContent` path taken for ReadSeeker
files. -/
theorem C9_no_conditional_handling (store : Store) (sha : List Nat → Str)
    (st : FSState) (req : Request)
    (hns : ∀ p f, store.openF p = .ok f → f.seeker = false) :
    (serveHTTP store sha st req).1.status ≠ 206 ∧
    (serveHTTP store sha st req).1.status ≠ 304 ∧
    (∀ f fi, (openFS store sha st (serveFilename req.urlPath)).file = .ok f →
      f.info = .ok fi → fi.isDir = false →
      (serveHTTP store sha st req).1.status = 200 ∧
      (req.method ≠ mHEAD → (serveHTTP store sha st req).1.body = f.content)) := by
  cases hof : (openFS store sha st (serveFilename req.urlPath)).file with
  | error e =>
    rw [serveHTTP_err store sha st req e hof]
    refine ⟨?_, ?_, ?_⟩
    · cases e <;> simp [httpError]
    · cases e <;> simp [httpError]
    · intro f fi habs
      exact absurd habs (by simp)
  | ok f =>
    cases hfi : f.info with
    | error e2 =>
      rw [serveHTTP_statErr store sha st req f e2 hof hfi]
      refine ⟨by simp [httpError], by simp [httpError], ?_⟩
      intro f' fi' hof' hfi' _
      injection hof' with hf
      subst hf
      rw [hfi] at hfi'
      exact absurd hfi' (by simp)
    | ok fi =>
      by_cases hdir : fi.isDir = true
      · rw [serveHTTP_dir store sha st req f fi hof hfi hdir]
        refine ⟨by simp [httpError], by simp [httpError], ?_⟩
        intro f' fi' hof' hfi' hdir'
        injection hof' with hf
        subst hf
        rw [hfi] at hfi'
        injection hfi' with hfi2
        subst hfi2
        rw [hdir] at hdir'
        exact absurd hdir' (by simp)
      · have hdirf : fi.isDir = false := by
          revert hdir
          cases fi.isDir <;> simp
        have hsk : f.seeker = false := by
          obtain ⟨nm, hnm⟩ := openFS_file_is_open store sha st
            (serveFilename req.urlPath)
          rw [hof] at hnm
          exact hns nm f hnm.symm
        rw [serveHTTP_file store sha st req f fi hof hfi hdirf,
          if_neg (by simp [hsk])]
        refine ⟨by simp, by simp, ?_⟩
        intro f' fi' hof' hfi' _
        injection hof' with hf
        subst hf
        exact ⟨rfl, fun hm => by rw [if_pos hm]⟩

theorem cexStoreC4_non_seeker : ∀ p f, cexStoreC4.openF p = .ok f →
    f.seeker = false := by
  intro p f h
  by_cases hp : p = zerosName
  · subst hp
    simp only [cexStoreC4, if_pos rfl] at h
    injection h with h2
    rw [← h2]
    rfl
  · simp only [cexStoreC4, if_neg hp] at h
    exact absurd h (by simp)

/-- C9 witness: on a store of plain (non-ReadSeeker) files, even a request
carrying `If-None-Match: *` is not answered 304, via the theorem. -/
theorem C9_no_conditional_handling_witness :
    (serveHTTP cexStoreC4 shaZ NewFS
      ⟨mGET, '/' :: zerosName, [(hIfNoneMatch, ['*'])]⟩).1.status ≠ 304 :=
  (C9_no_conditional_handling cexStoreC4 shaZ NewFS
    ⟨mGET, '/' :: zerosName, [(hIfNoneMatch, ['*'])]⟩ cexStoreC4_non_seeker).2.1

/-- C9 counterexample: for a ReadSeeker file, a verified hashed request
carrying `If-None-Match` equal to the digest-derived ETag is answered 304
with an empty body by the `http.ServeContent` delegation — the handler does
perform conditional-request handling, contradicting the claim. -/
theorem C9_no_conditional_handling_counterexample :
    cexStoreC9.openF ['x'] = .ok seekFile ∧ seekFile.seeker = true ∧
    (serveHTTP cexStoreC9 shaZ NewFS
      ⟨mGET, '/' :: zerosName, [(hIfNoneMatch, '"' :: hex64z ++ ['"'])]⟩).1.status =
      304 ∧
    (serveHTTP cexStoreC9 shaZ NewFS
      ⟨mGET, '/' :: zerosName, [(hIfNoneMatch, '"' :: hex64z ++ ['"'])]⟩).1.body =
      [] :=
  ⟨rfl, rfl, by decide, by decide⟩

/-- C4 (amended): caching-header policy — the handler sets the one-year
`Cache-Control` header exactly when the request got past the error and
directory checks and the resolved open carried a non-empty parsed digest
(whether or not the digest verified); the header value is only ever absent
or the one-year value; and the digest-derived `ETag` is set exactly when
`Cache-Control` is. In particular a 200 response for a name whose embedded
digest does not verify still carries both caching headers. -/
theorem C4_caching_headers (store : Store) (sha : List Nat → Str) (st : FSState)
    (req : Request) :
    ((serveHTTP store sha st req).1.cacheControl = some ccValue ↔
      ((openFS store sha st (serveFilename req.urlPath)).hash ≠ [] ∧
        ∃ f fi, (openFS store sha st (serveFilename req.urlPath)).file = .ok f ∧
          f.info = .ok fi ∧ fi.isDir = false)) ∧
    ((serveHTTP store sha st req).1.cacheControl = none ∨
      (serveHTTP store sha st req).1.cacheControl = some ccValue) ∧
    ((serveHTTP store sha st req).1.etag =
      (if (serveHTTP store sha st req).1.cacheControl = some ccValue
        then some ('"' :: (openFS store sha st (serveFilename req.urlPath)).hash
          ++ ['"'])
        else none)) := by
  cases hof : (openFS store sha st (serveFilename req.urlPath)).file with
  | error e =>
    rw [serveHTTP_err store sha st req e hof]
    refine ⟨?_, Or.inl rfl, by simp [httpError]⟩
    constructor
    · intro habs
      exact absurd habs (by simp [httpError])
    · rintro ⟨-, f, fi, habs, -, -⟩
      exact absurd habs (by simp)
  | ok f =>
    cases hfi : f.info with
    | error e2 =>
      rw [serveHTTP_statErr store sha st req f e2 hof hfi]
      refine ⟨?_, Or.inl rfl, by simp [httpError]⟩
      constructor
      · intro habs
        exact absurd habs (by simp [httpError])
      · rintro ⟨-, f', fi', hof', hfi', -⟩
        injection hof' with hf
        subst hf
        rw [hfi] at hfi'
        exact absurd hfi' (by simp)
    | ok fi =>
      by_cases hdir : fi.isDir = true
      · rw [serveHTTP_dir store sha st req f fi hof hfi hdir]
        refine ⟨?_, Or.inl rfl, by simp [httpError]⟩
        constructor
        · intro habs
          exact absurd habs (by simp [httpError])
        · rintro ⟨-, f', fi', hof', hfi', hdir'⟩
          injection hof' with hf
          subst hf
          rw [hfi] at hfi'
          injection hfi' with hfi2
          subst hfi2
          rw [hdir] at hdir'
          exact absurd hdir' (by simp)
      · have hdirf : fi.isDir = false := by
          revert hdir
          cases fi.isDir <;> simp
        rw [serveHTTP_file store sha st req f fi hof hfi hdirf]
        by_cases hsk : f.seeker = true
        · rw [if_pos hsk]
          obtain ⟨hcc, het⟩ := serveContent_headers
            (if (openFS store sha st (serveFilename req.urlPath)).hash ≠ []
              then some ccValue else none)
            (if (openFS store sha st (serveFilename req.urlPath)).hash ≠ []
              then some ('"' :: (openFS store sha st (serveFilename req.urlPath)).hash
                ++ ['"']) else none)
            req fi.modTime f.content
          rw [hcc, het]
          by_cases hh : (openFS store sha st (serveFilename req.urlPath)).hash ≠ []
          · rw [if_pos hh, if_pos hh]
            exact ⟨⟨fun _ => ⟨hh, f, fi, rfl, hfi, hdirf⟩, fun _ => rfl⟩,
              Or.inr rfl, by simp⟩
          · rw [if_neg hh, if_neg hh]
            refine ⟨⟨fun habs => absurd habs (by simp), ?_⟩, Or.inl rfl, by simp⟩
            rintro ⟨hh2, -⟩
            exact absurd hh2 hh
        · rw [if_neg hsk]
          by_cases hh : (openFS store sha st (serveFilename req.urlPath)).hash ≠ []
          · rw [if_pos hh, if_pos hh]
            exact ⟨⟨fun _ => ⟨hh, f, fi, rfl, hfi, hdirf⟩, fun _ => rfl⟩,
              Or.inr rfl, by simp⟩
          · rw [if_neg hh, if_neg hh]
            refine ⟨⟨fun habs => absurd habs (by simp), ?_⟩, Or.inl rfl, by simp⟩
            rintro ⟨hh2, -⟩
            exact absurd hh2 hh

/-- C4 witness: a verified hashed request for `a/b.txt` carries the one-year
cache header, via the header-policy theorem. -/
theorem C4_caching_headers_witness :
    (serveHTTP witStore shaZ NewFS
      ⟨mGET, ('/' :: "a/b-".data ++ hex64z ++ ".txt".data), []⟩).1.cacheControl =
      some ccValue :=
  (C4_caching_headers witStore shaZ NewFS
    ⟨mGET, ('/' :: "a/b-".data ++ hex64z ++ ".txt".data), []⟩).1.mpr
    ⟨by decide, plainFile, ⟨false, 3, 0⟩, rfl, rfl, rfl⟩

/-- C4 counterexample: the name `x-<64 zeros>` exists literally but its
embedded digest does not verify (`HashName` of the base `x` differs), yet
the 200 response carries both the one-year `Cache-Control` and the
digest-derived `ETag` — the headers follow the syntactic digest, not
verification. -/
theorem C4_caching_headers_counterexample :
    (HashName cexStoreC4 shaZ NewFS ['x']).res ≠ zerosName ∧
    (serveHTTP cexStoreC4 shaZ NewFS ⟨mGET, '/' :: zerosName, []⟩).1.status = 200 ∧
    (serveHTTP cexStoreC4 shaZ NewFS ⟨mGET, '/' :: zerosName, []⟩).1.cacheControl =
      some ccValue ∧
    (serveHTTP cexStoreC4 shaZ NewFS ⟨mGET, '/' :: zerosName, []⟩).1.etag =
      some ('"' :: hex64z ++ ['"']) := by
  decide
